import Mathlib

set_option maxRecDepth 100000

/-!
# Verification of the `fix_codacy.py` rule-based text-rewriting tool

This file gives a shallow embedding of the rewrite engine of
`fix_codacy.py`: the five per-file fix functions (`fix_controls`,
`fix_app`, `fix_map2d`, `fix_gemini`, `fix_types`), each an ordered
sequence of literal `str.replace` rules and, for two of them, one
`re.sub` rule with the pattern
`(on[A-Z][a-zA-Z]*=\x7b(?:e|)\s*=>)\s*([^\x7b\x7d\n]+)\x7d`
(the `fix_app` variant allows `e`, `v` or nothing in the alternation),
replaced by the template `\1 \x7b \2; \x7d\x7d`.

Strings are modelled as `List Char`.  `replaceAll` embeds Python's
`str.replace` (left-to-right, non-overlapping).  The regular expression
is embedded by a deterministic scanner that is faithful to CPython's
backtracking semantics for this particular pattern: every quantifier in
the pattern is followed by a character its class cannot match, except
the whitespace between the two groups, for which the scanner tries every
split from the greedy one downwards (`tailTry`).  The file-system layer
(read, transform, write, and the five-file driver) is embedded over an
association-list file system with explicit error propagation.
-/

/-! ## Character classes used by the pattern -/

/-- ASCII `[A-Z]`. -/
def isUpperA (c : Char) : Bool :=
  65 ≤ c.toNat && c.toNat ≤ 90

/-- ASCII `[a-zA-Z]`. -/
def isLetterA (c : Char) : Bool :=
  (65 ≤ c.toNat && c.toNat ≤ 90) || (97 ≤ c.toNat && c.toNat ≤ 122)

/-- CPython's `\s` on `str` patterns: the exact set of code points
matched by `re.match(r"\s", c)`. -/
def isPySpace (c : Char) : Bool :=
  let n := c.toNat
  (9 ≤ n && n ≤ 13) || n == 32 || (28 ≤ n && n ≤ 31) || n == 133 || n == 160 ||
    n == 5760 || (8192 ≤ n && n ≤ 8202) || n == 8232 || n == 8233 ||
    n == 8239 || n == 8287 || n == 12288

/-- The body class `[^\x7b\x7d\n]`. -/
def isBChar (c : Char) : Bool :=
  !(c == '\x7b' || c == '\x7d' || c == '\n')

/-! ## Python `str.replace` -/

/-- Fuelled worker for `replaceAll`; the fuel is only a termination
device and is irrelevant as soon as it dominates the input length. -/
def replFuel (m r : List Char) : Nat → List Char → List Char
  | _, [] => []
  | 0, s => s
  | f + 1, c :: cs =>
    if m.isPrefixOf (c :: cs) && !m.isEmpty then
      r ++ replFuel m r f (List.drop (m.length - 1) cs)
    else c :: replFuel m r f cs

/-- Python's `s.replace(m, r)` for a non-empty literal `m`: scan left to
right, replace every non-overlapping occurrence of `m` by `r`. -/
def replaceAll (m r s : List Char) : List Char :=
  replFuel m r s.length s

/-- The `(?:e|)` (resp. `(?:e|v|)`) alternation: consume one character
if it belongs to `V`, else consume nothing.  For this pattern the
choice is forced: if the consumed branch later fails at `=>`, the empty
branch immediately fails too, because a character of `V` is neither
whitespace nor `=`. -/
def takeV (V t : List Char) : List Char × List Char :=
  match t with
  | [] => ([], [])
  | x :: t5 => if V.contains x then ([x], t5) else ([], x :: t5)

/-- Deterministic scan of
`on[A-Z][a-zA-Z]*=\x7b(?:e|)\s*=>` (group 1).  Returns the consumed
prefix (the text of group 1) and the remaining suffix.  Each quantifier
is followed by a character outside its class, so greedy matching with
no backtracking is faithful to CPython here. -/
def headMatch (V t : List Char) : Option (List Char × List Char) :=
  match t with
  | c1 :: c2 :: c3 :: t3 =>
    if c1 == 'o' && c2 == 'n' && isUpperA c3 then
      match List.dropWhile isLetterA t3 with
      | d1 :: d2 :: t4 =>
        if d1 == '=' && d2 == '\x7b' then
          match List.dropWhile isPySpace (takeV V t4).2 with
          | e1 :: e2 :: t6 =>
            if e1 == '=' && e2 == '>' then
              some (c1 :: c2 :: c3 ::
                (List.takeWhile isLetterA t3 ++ d1 :: d2 ::
                  ((takeV V t4).1 ++ List.takeWhile isPySpace (takeV V t4).2 ++
                    [e1, e2])), t6)
            else none
          | _ => none
        else none
      | _ => none
    else none
  | _ => none

/-- One attempt of `\s*([^\x7b\x7d\n]+)\x7d` after dropping `a`
whitespace characters: the body group is forced to be the maximal run
of body characters, and the very next character must be `\x7d`. -/
def tailCheck (t6 : List Char) (a : Nat) : Option (List Char × List Char) :=
  match List.dropWhile isBChar (List.drop a t6) with
  | k :: rest =>
    if !(List.takeWhile isBChar (List.drop a t6)).isEmpty && k == '\x7d' then
      some (List.takeWhile isBChar (List.drop a t6), rest)
    else none
  | [] => none

/-- Backtracking of the greedy inter-group `\s*`: try `a`, then `a - 1`,
… down to `0`. -/
def tailTry (t6 : List Char) : Nat → Option (List Char × List Char)
  | 0 => tailCheck t6 0
  | a + 1 =>
    match tailCheck t6 (a + 1) with
    | some r => some r
    | none => tailTry t6 a

/-- Scan of `\s*([^\x7b\x7d\n]+)\x7d` (whitespace, then group 2, then
the closing brace), starting from the greedy whitespace split. -/
def tailMatch (t6 : List Char) : Option (List Char × List Char) :=
  tailTry t6 (List.takeWhile isPySpace t6).length

/-- A match of the whole pattern anchored at the start of `t`:
`some (g1, g2, rest)` gives the two groups and the text after the
match. -/
def matchAt (V t : List Char) : Option (List Char × List Char × List Char) :=
  match headMatch V t with
  | none => none
  | some (g1, t6) =>
    match tailMatch t6 with
    | none => none
    | some (g2, rest) => some (g1, g2, rest)

/-- Text inserted by the replacement template between group 1 and
group 2. -/
def insOpen : List Char := (" \x7b ").toList

/-- Text inserted by the replacement template after group 2. -/
def insClose : List Char := ("; \x7d\x7d").toList

/-- Fuelled worker for `reSubArrow`: scan left to right; at a match
emit `\1 \x7b \2; \x7d\x7d` and continue after the match, otherwise
copy one character. -/
def subFuel (V : List Char) : Nat → List Char → List Char
  | _, [] => []
  | 0, s => s
  | f + 1, c :: cs =>
    match matchAt V (c :: cs) with
    | some (g1, g2, rest) => g1 ++ insOpen ++ g2 ++ insClose ++ subFuel V f rest
    | none => c :: subFuel V f cs

/-- Python's `re.sub(pattern, replacement, s)` for the arrow pattern
with alternation set `V`. -/
def reSubArrow (V s : List Char) : List Char := subFuel V s.length s

/-- Alternation set of the `fix_controls` pattern: `(?:e|)`. -/
def vE : List Char := ['e']

/-- Alternation set of the `fix_app` pattern: `(?:e|v|)`. -/
def vEV : List Char := ['e', 'v']

def c17m : List Char := ("value: any) => \x7b").toList

def c17r : List Char := ("value: any) => \x7b // eslint-disable-next-line @typescript-eslint/no-explicit-any").toList

def c18m : List Char := ("handleChange = (key: keyof WorldParams, value: any) => \x7b").toList

def c18r : List Char := ("handleChange = <K extends keyof WorldParams>(key: K, value: WorldParams[K]) => \x7b").toList

def c19m : List Char := ("handleAdvancedChange = (key: keyof WorldParams, value: any) => \x7b").toList

def c19r : List Char := ("handleAdvancedChange = <K extends keyof WorldParams>(key: K, value: WorldParams[K]) => \x7b").toList

def c20m : List Char := ("icon: any,").toList

def c20r : List Char := ("icon: React.ElementType,").toList

def a31m : List Char := ("(msg) => addLog(msg)").toList

def a31r : List Char := ("(msg) => \x7b addLog(msg); \x7d").toList

def a39m : List Char := ("\x7d catch (e: any) \x7b").toList

def a39r : List Char := ("\x7d catch (e: any) \x7b // eslint-disable-next-line @typescript-eslint/no-explicit-any").toList

def a42m : List Char := ("if (genF.provinces[idx]) \x7b").toList

def a42r : List Char := ("// eslint-disable-next-line security/detect-object-injection\n                          if (genF.provinces[idx]) \x7b").toList

def a43m : List Char := ("genF.provinces[idx].name = savedP.name;").toList

def a43r : List Char := ("// eslint-disable-next-line security/detect-object-injection\n                              genF.provinces[idx].name = savedP.name;").toList

def a44m : List Char := ("if (genF.provinces[idx].towns[tIdx]) \x7b").toList

def a44r : List Char := ("// eslint-disable-next-line security/detect-object-injection\n                                  if (genF.provinces[idx].towns[tIdx]) \x7b").toList

def a45m : List Char := ("genF.provinces[idx].towns[tIdx].name = savedT.name;").toList

def a45r : List Char := ("// eslint-disable-next-line security/detect-object-injection\n                                      genF.provinces[idx].towns[tIdx].name = savedT.name;").toList

def m56m : List Char := ("return () => ro.disconnect();").toList

def m56r : List Char := ("return () => \x7b ro.disconnect(); \x7d;").toList

def m57m : List Char := ("const listener = (event: WheelEvent) => handleWheel(event);").toList

def m57r : List Char := ("const listener = (event: WheelEvent) => \x7b handleWheel(event); \x7d;").toList

def m58m : List Char := ("return () => canvas.removeEventListener(\x27wheel\x27, listener);").toList

def m58r : List Char := ("return () => \x7b canvas.removeEventListener(\x27wheel\x27, listener); \x7d;").toList

def m61m : List Char := ("\x7b type: \x27Sphere\x27 \x7d as any").toList

def m61r : List Char := ("\x7b type: \x27Sphere\x27 \x7d as d3.GeoPermissibleObjects").toList

def m64m : List Char := ("const feature = world.geoJson?.features?.[i];").toList

def m64r : List Char := ("// eslint-disable-next-line security/detect-object-injection\n        const feature = world.geoJson?.features?.[i];").toList

def m65m : List Char := ("const color = getCellColor(world.cells[i], viewMode, world.params.seaLevel);").toList

def m65r : List Char := ("// eslint-disable-next-line security/detect-object-injection\n        const color = getCellColor(world.cells[i], viewMode, world.params.seaLevel);").toList

def m66m : List Char := ("outData[outIdx] = srcData[srcIdx];").toList

def m66r : List Char := ("// eslint-disable-next-line security/detect-object-injection\n              outData[outIdx] = srcData[srcIdx];").toList

def g81m : List Char := ("const level = world.params.loreLevel || 1;").toList

def g81r : List Char := ("const level = world.params.loreLevel;").toList

def g84m : List Char := ("(fJson: any)").toList

def g84r : List Char := ("(fJson: \x7b id: number, name: string, description: string, capitalName?: string, provinceNames?: string[] \x7d)").toList

def g87m : List Char := ("if (fJson.provinceNames[idx]) \x7b").toList

def g87r : List Char := ("// eslint-disable-next-line security/detect-object-injection\n                        if (fJson.provinceNames[idx]) \x7b").toList

def g88m : List Char := ("p.name = fJson.provinceNames[idx];").toList

def g88r : List Char := ("// eslint-disable-next-line security/detect-object-injection\n                            p.name = fJson.provinceNames[idx];").toList

def t99m : List Char := ("geoJson: any;").toList

def t99r : List Char := ("geoJson: Record<string, unknown>;").toList

/-! ## The five in-memory transforms, mirroring the source line by line -/

/-- The in-memory rewrite portion of `fix_controls` (lines 10-20). -/
def controlsTransform (c0 : List Char) : List Char :=
  let c1 := reSubArrow vE c0
  let c2 := replaceAll c17m c17r c1
  let c3 := replaceAll c18m c18r c2
  let c4 := replaceAll c19m c19r c3
  replaceAll c20m c20r c4

/-- The in-memory rewrite portion of `fix_app` (lines 31-45). -/
def appTransform (c0 : List Char) : List Char :=
  let c1 := replaceAll a31m a31r c0
  let c2 := reSubArrow vEV c1
  let c3 := replaceAll a39m a39r c2
  let c4 := replaceAll a42m a42r c3
  let c5 := replaceAll a43m a43r c4
  let c6 := replaceAll a44m a44r c5
  replaceAll a45m a45r c6

/-- The in-memory rewrite portion of `fix_map2d` (lines 56-66). -/
def map2dTransform (c0 : List Char) : List Char :=
  let c1 := replaceAll m56m m56r c0
  let c2 := replaceAll m57m m57r c1
  let c3 := replaceAll m58m m58r c2
  let c4 := replaceAll m61m m61r c3
  let c5 := replaceAll m64m m64r c4
  let c6 := replaceAll m65m m65r c5
  replaceAll m66m m66r c6

/-- The in-memory rewrite portion of `fix_gemini` (lines 81-88). -/
def geminiTransform (c0 : List Char) : List Char :=
  let c1 := replaceAll g81m g81r c0
  let c2 := replaceAll g84m g84r c1
  let c3 := replaceAll g87m g87r c2
  replaceAll g88m g88r c3

/-- The in-memory rewrite portion of `fix_types` (line 99). -/
def typesTransform (c0 : List Char) : List Char :=
  replaceAll t99m t99r c0

/-! ## Rules as data: the Rule / Rule Set view of the spec -/

/-- A single rewrite rule: a literal substring replacement or the arrow
pattern rule with alternation set `V`. -/
inductive Rule where
  | lit (m r : List Char)
  | pat (V : List Char)

/-- Apply one rule to a string. -/
def applyRule (ru : Rule) (c : List Char) : List Char :=
  match ru with
  | .lit m r => replaceAll m r c
  | .pat V => reSubArrow V c

/-- Apply a rule set as a left fold, each rule acting on the output of
the previous one. -/
def applyRules (rules : List Rule) (c : List Char) : List Char :=
  rules.foldl (fun acc ru => applyRule ru acc) c

/-- Rule set of `fix_controls`, in source order. -/
def controlsRules : List Rule :=
  [.pat vE, .lit c17m c17r, .lit c18m c18r, .lit c19m c19r, .lit c20m c20r]

/-- Rule set of `fix_app`, in source order. -/
def appRules : List Rule :=
  [.lit a31m a31r, .pat vEV, .lit a39m a39r, .lit a42m a42r, .lit a43m a43r,
    .lit a44m a44r, .lit a45m a45r]

/-- Rule set of `fix_map2d`, in source order. -/
def map2dRules : List Rule :=
  [.lit m56m m56r, .lit m57m m57r, .lit m58m m58r, .lit m61m m61r,
    .lit m64m m64r, .lit m65m m65r, .lit m66m m66r]

/-- Rule set of `fix_gemini`, in source order. -/
def geminiRules : List Rule :=
  [.lit g81m g81r, .lit g84m g84r, .lit g87m g87r, .lit g88m g88r]

/-- Rule set of `fix_types`. -/
def typesRules : List Rule := [.lit t99m t99r]

/-! ## Matcher-occurrence predicates (for the no-op property) -/

/-- Does the arrow pattern match anywhere in `s` (at any start
position)? -/
def hasArrowMatch (V : List Char) : List Char → Bool
  | [] => false
  | c :: cs => (matchAt V (c :: cs)).isSome || hasArrowMatch V cs

/-- Substring containment: does `m` occur contiguously in `s`? -/
def occursIn (m : List Char) : List Char → Bool
  | [] => m.isEmpty
  | c :: cs => m.isPrefixOf (c :: cs) || occursIn m cs

/-- Does a rule's matcher occur in `c` (literal substring containment,
or an arrow-pattern match anywhere)? -/
def ruleHits (ru : Rule) (c : List Char) : Bool :=
  match ru with
  | .lit m _ => occursIn m c
  | .pat V => hasArrowMatch V c

/-! ## File-system layer -/

/-- Target paths, in the order the driver processes them
(lines 104-108). -/
def controlsPath : List Char := ("components/Controls.tsx").toList

def appPath : List Char := ("App.tsx").toList

def map2dPath : List Char := ("components/Map2D.tsx").toList

def geminiPath : List Char := ("services/gemini.ts").toList

def typesPath : List Char := ("types.ts").toList

/-- Failures a per-file fix can hit: the read failing (missing file) or
the in-memory transform raising (e.g. a malformed pattern). -/
inductive Err where
  | fileNotFound (p : List Char)
  | malformedPattern
deriving DecidableEq

/-- A file system: an association list from paths to contents. -/
abbrev FS : Type := List (List Char × List Char)

/-- Content of `p`, if present. -/
def lookupFS (fs : FS) (p : List Char) : Option (List Char) :=
  match fs with
  | [] => none
  | (q, d) :: rest => if q = p then some d else lookupFS rest p

/-- Overwrite `p` with `c` (Python `open(p, "w")` plus `write`). -/
def setFS (fs : FS) (p c : List Char) : FS :=
  match fs with
  | [] => [(p, c)]
  | (q, d) :: rest => if q = p then (p, c) :: rest else (q, d) :: setFS rest p c

/-- The shared skeleton of every fix function: read the file, run the
in-memory transform, and only then write the result back.  The returned
pair is the resulting file system and the error that aborted the run,
if any; on an error the file system passes through untouched because
the write statement is never reached. -/
def runFixFile (p : List Char) (t : List Char → Except Err (List Char)) (fs : FS) :
    FS × Option Err :=
  match lookupFS fs p with
  | none => (fs, some (.fileNotFound p))
  | some c =>
    match t c with
    | .error e => (fs, some e)
    | .ok c2 => (setFS fs p c2, none)

/-- A total in-memory transform, lifted to the fallible interface. -/
def liftTotal (t : List Char → List Char) : List Char → Except Err (List Char) :=
  fun c => .ok (t c)

/-- `fix_controls` as a file-system operation. -/
def fixControls (fs : FS) : FS × Option Err :=
  runFixFile controlsPath (liftTotal controlsTransform) fs

/-- `fix_app` as a file-system operation. -/
def fixApp (fs : FS) : FS × Option Err :=
  runFixFile appPath (liftTotal appTransform) fs

/-- `fix_map2d` as a file-system operation. -/
def fixMap2d (fs : FS) : FS × Option Err :=
  runFixFile map2dPath (liftTotal map2dTransform) fs

/-- `fix_gemini` as a file-system operation. -/
def fixGemini (fs : FS) : FS × Option Err :=
  runFixFile geminiPath (liftTotal geminiTransform) fs

/-- `fix_types` as a file-system operation. -/
def fixTypes (fs : FS) : FS × Option Err :=
  runFixFile typesPath (liftTotal typesTransform) fs

/-- One driver step: a path together with its fallible transform. -/
abbrev Step : Type := List Char × (List Char → Except Err (List Char))

/-- Run steps in order, aborting at the first failure (an uncaught
Python exception ends the run; files already written stay written). -/
def runSeq (steps : List Step) (fs : FS) : FS × Option Err :=
  match steps with
  | [] => (fs, none)
  | (p, t) :: rest =>
    match (runFixFile p t fs).2 with
    | none => runSeq rest (runFixFile p t fs).1
    | some e => ((runFixFile p t fs).1, some e)

/-- The module-level driver (lines 104-108): the five fixes, in source
order. -/
def driverSteps : List Step :=
  [(controlsPath, liftTotal controlsTransform),
    (appPath, liftTotal appTransform),
    (map2dPath, liftTotal map2dTransform),
    (geminiPath, liftTotal geminiTransform),
    (typesPath, liftTotal typesTransform)]

/-- Running the whole tool. -/
def runDriver (fs : FS) : FS × Option Err :=
  runSeq driverSteps fs

/-! ## Concrete scenario strings from the specification -/

/-- C2 scenario input. -/
def inC2 : List Char :=
  ("handleChange = (key: keyof WorldParams, value: any) => \x7b").toList

/-- The output the specification expects for the C2 scenario. -/
def specC2 : List Char :=
  ("handleChange = <K extends keyof WorldParams>(key: K, value: WorldParams[K]) => \x7b").toList

/-- The output the code actually produces for the C2 scenario: the
line-17 rule fires first and appends its suppression comment. -/
def outC2 : List Char :=
  ("handleChange = <K extends keyof WorldParams>(key: K, value: WorldParams[K]) => \x7b // eslint-disable-next-line @typescript-eslint/no-explicit-any").toList

/-- C7 scenario input. -/
def inC7 : List Char := ("const level = world.params.loreLevel || 1;").toList

/-- C7 scenario output. -/
def outC7 : List Char := ("const level = world.params.loreLevel;").toList

/-- A witness that `fix_controls` is not idempotent: the line-17
matcher is a prefix of its own replacement. -/
def wCtrl : List Char := ("value: any) => \x7b").toList

/-- A witness that `fix_app` is not idempotent (line 39). -/
def wApp : List Char := ("\x7d catch (e: any) \x7b").toList

/-- A witness that `fix_map2d` is not idempotent (line 64: the
replacement contains the matcher after the inserted comment). -/
def wMap : List Char := ("const feature = world.geoJson?.features?.[i];").toList

/-- A witness that `fix_gemini` is not idempotent (line 87). -/
def wGem : List Char := ("if (fJson.provinceNames[idx]) \x7b").toList

/-- A string none of the configured matchers occurs in. -/
def wNoop : List Char := ("let x = 1;").toList

/-- A one-character file content. -/
def wX : List Char := ("x").toList

/-! ## Basic lemmas about the engine -/

theorem replFuel_congr (m r : List Char) :
    ∀ (n : Nat) (s : List Char), s.length ≤ n →
      ∀ f g, s.length ≤ f → s.length ≤ g → replFuel m r f s = replFuel m r g s := by
  intro n
  induction n with
  | zero =>
    intro s hs f g _ _
    have : s = [] := List.length_eq_zero.mp (Nat.le_zero.mp hs)
    subst this
    cases f <;> cases g <;> rfl
  | succ n ih =>
    intro s hs f g hf hg
    cases s with
    | nil => cases f <;> cases g <;> rfl
    | cons c cs =>
      cases f with
      | zero => exact absurd hf (by simp)
      | succ f =>
        cases g with
        | zero => exact absurd hg (by simp)
        | succ g =>
          have hcs : cs.length ≤ n := by simpa using hs
          have hdrop : (List.drop (m.length - 1) cs).length ≤ cs.length := by
            simp [List.length_drop]
          simp only [replFuel]
          by_cases h : (m.isPrefixOf (c :: cs) && !m.isEmpty) = true
          · simp only [if_pos h]
            have h1 := ih (List.drop (m.length - 1) cs) (le_trans hdrop hcs)
              f (List.drop (m.length - 1) cs).length
              (le_trans hdrop (by simpa using hf)) (le_refl _)
            have h2 := ih (List.drop (m.length - 1) cs) (le_trans hdrop hcs)
              g (List.drop (m.length - 1) cs).length
              (le_trans hdrop (by simpa using hg)) (le_refl _)
            rw [h1, h2]
          · simp only [if_neg h]
            have h1 := ih cs hcs f cs.length (by simpa using hf) (le_refl _)
            have h2 := ih cs hcs g cs.length (by simpa using hg) (le_refl _)
            rw [h1, h2]

@[simp] theorem replaceAll_nil (m r : List Char) : replaceAll m r [] = [] := rfl

theorem replaceAll_cons (m r : List Char) (c : Char) (cs : List Char) :
    replaceAll m r (c :: cs) =
      if m.isPrefixOf (c :: cs) && !m.isEmpty then
        r ++ replaceAll m r (List.drop (m.length - 1) cs)
      else c :: replaceAll m r cs := by
  show replFuel m r (cs.length + 1) (c :: cs) = _
  simp only [replFuel]
  by_cases h : (m.isPrefixOf (c :: cs) && !m.isEmpty) = true
  · simp only [h, if_true]
    rw [replFuel_congr m r cs.length (List.drop (m.length - 1) cs)
      (by simp [List.length_drop]) cs.length (List.drop (m.length - 1) cs).length
      (by simp [List.length_drop]) (le_refl _)]
    rfl
  · simp only [h, if_false]
    rfl

/-! Length facts needed to justify the scanning recursion. -/

theorem length_dropWhile_le (p : Char → Bool) (l : List Char) :
    (List.dropWhile p l).length ≤ l.length := by
  induction l with
  | nil => simp
  | cons c cs ih =>
    by_cases h : p c = true
    · simp only [List.dropWhile_cons_of_pos h]
      exact le_trans ih (by simp)
    · simp [List.dropWhile_cons_of_neg h]

theorem tailCheck_some_length {t6 : List Char} {a : Nat} {g2 rest : List Char}
    (h : tailCheck t6 a = some (g2, rest)) : rest.length < t6.length := by
  unfold tailCheck at h
  have hsplit : List.takeWhile isBChar (List.drop a t6) ++
      List.dropWhile isBChar (List.drop a t6) = List.drop a t6 :=
    List.takeWhile_append_dropWhile _ _
  have hlen : (List.drop a t6).length ≤ t6.length := by
    simp [List.length_drop]
  split at h
  · rename_i k rest' hd
    split at h
    · simp only [Option.some.injEq, Prod.mk.injEq] at h
      obtain ⟨-, rfl⟩ := h
      have hl := congrArg List.length hsplit
      rw [hd] at hl
      simp only [List.length_append, List.length_cons] at hl
      omega
    · exact absurd h (by simp)
  · exact absurd h (by simp)

theorem tailTry_some_length {t6 : List Char} {g2 rest : List Char} :
    ∀ a, tailTry t6 a = some (g2, rest) → rest.length < t6.length := by
  intro a
  induction a with
  | zero => exact fun h => tailCheck_some_length h
  | succ a ih =>
    intro h
    unfold tailTry at h
    rcases hc : tailCheck t6 (a + 1) with _ | r
    · rw [hc] at h; exact ih h
    · rw [hc] at h
      cases r with
      | mk x y =>
        have : x = g2 ∧ y = rest := by
          simp only [Option.some.injEq, Prod.mk.injEq] at h
          exact ⟨h.1, h.2⟩
        rcases this with ⟨rfl, rfl⟩
        exact tailCheck_some_length hc

theorem tailMatch_some_length {t6 g2 rest : List Char}
    (h : tailMatch t6 = some (g2, rest)) : rest.length < t6.length :=
  tailTry_some_length _ h

@[simp] theorem takeV_nil (V : List Char) : takeV V [] = ([], []) := rfl

theorem takeV_cons (V : List Char) (x : Char) (t5 : List Char) :
    takeV V (x :: t5) = if V.contains x then ([x], t5) else ([], x :: t5) := rfl

theorem takeV_snd_length (V t : List Char) : (takeV V t).2.length ≤ t.length := by
  cases t with
  | nil => simp
  | cons x t5 =>
    rw [takeV_cons]
    split <;> simp

theorem headMatch_some_length {V t g1 t6 : List Char}
    (h : headMatch V t = some (g1, t6)) : t6.length < t.length := by
  unfold headMatch at h
  split at h
  · rename_i c1 c2 c3 t3
    split at h
    · split at h
      · rename_i d1 d2 t4 hd
        split at h
        · split at h
          · rename_i e1 e2 t6' he
            split at h
            · simp only [Option.some.injEq, Prod.mk.injEq] at h
              obtain ⟨-, h4⟩ := h
              have l1 : t6'.length + 2 ≤ (takeV V t4).2.length := by
                have := length_dropWhile_le isPySpace (takeV V t4).2
                rw [he] at this
                simpa using this
              have l2 : (takeV V t4).2.length ≤ t4.length := takeV_snd_length V t4
              have l3 : t4.length + 2 ≤ t3.length := by
                have := length_dropWhile_le isLetterA t3
                rw [hd] at this
                simpa using this
              have l4 : t6'.length = t6.length := by rw [h4]
              simp only [List.length_cons]
              omega
            · exact absurd h (by simp)
          · exact absurd h (by simp)
        · exact absurd h (by simp)
      · exact absurd h (by simp)
    · exact absurd h (by simp)
  · exact absurd h (by simp)

theorem matchAt_some_length {V t g1 g2 rest : List Char}
    (h : matchAt V t = some (g1, g2, rest)) : rest.length < t.length := by
  unfold matchAt at h
  split at h
  · exact absurd h (by simp)
  · rename_i p g1' t6 hh
    split at h
    · exact absurd h (by simp)
    · rename_i q g2' rest' ht
      simp only [Option.some.injEq, Prod.mk.injEq] at h
      obtain ⟨-, -, rfl⟩ := h
      exact lt_trans (tailMatch_some_length ht) (headMatch_some_length hh)

/-! ## `re.sub` for the arrow pattern -/

theorem subFuel_congr (V : List Char) :
    ∀ (n : Nat) (s : List Char), s.length ≤ n →
      ∀ f g, s.length ≤ f → s.length ≤ g → subFuel V f s = subFuel V g s := by
  intro n
  induction n with
  | zero =>
    intro s hs f g _ _
    have : s = [] := List.length_eq_zero.mp (Nat.le_zero.mp hs)
    subst this
    cases f <;> cases g <;> rfl
  | succ n ih =>
    intro s hs f g hf hg
    cases s with
    | nil => cases f <;> cases g <;> rfl
    | cons c cs =>
      cases f with
      | zero => exact absurd hf (by simp)
      | succ f =>
        cases g with
        | zero => exact absurd hg (by simp)
        | succ g =>
          have hcs : cs.length ≤ n := by simpa using hs
          rcases hm : matchAt V (c :: cs) with _ | ⟨g1, g2, rest⟩
          · simp only [subFuel, hm]
            have h1 := ih cs hcs f cs.length (by simpa using hf) (le_refl _)
            have h2 := ih cs hcs g cs.length (by simpa using hg) (le_refl _)
            rw [h1, h2]
          · simp only [subFuel, hm]
            have hr : rest.length ≤ cs.length := by
              have := matchAt_some_length hm
              simp only [List.length_cons] at this
              omega
            have h1 := ih rest (le_trans hr hcs) f rest.length
              (le_trans hr (by simpa using hf)) (le_refl _)
            have h2 := ih rest (le_trans hr hcs) g rest.length
              (le_trans hr (by simpa using hg)) (le_refl _)
            rw [h1, h2]

@[simp] theorem reSubArrow_nil (V : List Char) : reSubArrow V [] = [] := rfl

theorem reSubArrow_match {V : List Char} {c : Char} {cs g1 g2 rest : List Char}
    (h : matchAt V (c :: cs) = some (g1, g2, rest)) :
    reSubArrow V (c :: cs) = g1 ++ insOpen ++ g2 ++ insClose ++ reSubArrow V rest := by
  show subFuel V (cs.length + 1) (c :: cs) = _
  simp only [subFuel, h]
  have hr : rest.length ≤ cs.length := by
    have := matchAt_some_length h
    simp only [List.length_cons] at this
    omega
  rw [subFuel_congr V cs.length rest hr cs.length rest.length hr (le_refl _)]
  rfl

theorem reSubArrow_nomatch {V : List Char} {c : Char} {cs : List Char}
    (h : matchAt V (c :: cs) = none) :
    reSubArrow V (c :: cs) = c :: reSubArrow V cs := by
  show subFuel V (cs.length + 1) (c :: cs) = _
  simp only [subFuel, h]
  rfl

/-! ## The configured rule sets (from `fix_codacy.py`)

Each literal rule is a matcher/replacement pair named after the source
line that contains it; the two pattern rules are the `reSubArrow`
instances with alternation sets `vE` (`fix_controls`) and `vEV`
(`fix_app`). -/

/-! ## No-op lemmas -/

theorem replaceAll_no_occurs {m : List Char} (r : List Char) :
    ∀ {s : List Char}, occursIn m s = false → replaceAll m r s = s := by
  intro s
  induction s with
  | nil => intro _; rfl
  | cons c cs ih =>
    intro h
    unfold occursIn at h
    simp only [Bool.or_eq_false_iff] at h
    rw [replaceAll_cons]
    rw [h.1]
    simp only [Bool.false_and, if_neg (by simp : ¬ (false = true))]
    rw [ih h.2]

theorem reSubArrow_no_match {V : List Char} :
    ∀ {s : List Char}, hasArrowMatch V s = false → reSubArrow V s = s := by
  intro s
  induction s with
  | nil => intro _; rfl
  | cons c cs ih =>
    intro h
    unfold hasArrowMatch at h
    simp only [Bool.or_eq_false_iff] at h
    rcases hm : matchAt V (c :: cs) with _ | x
    · rw [reSubArrow_nomatch hm, ih h.2]
    · rw [hm] at h
      simp at h

theorem applyRule_noop {ru : Rule} {c : List Char} (h : ruleHits ru c = false) :
    applyRule ru c = c := by
  cases ru with
  | lit m r => exact replaceAll_no_occurs r h
  | pat V => exact reSubArrow_no_match h

theorem applyRules_noop :
    ∀ {rules : List Rule} {c : List Char},
      (∀ ru ∈ rules, ruleHits ru c = false) → applyRules rules c = c := by
  intro rules
  induction rules with
  | nil => intro c _; rfl
  | cons ru rest ih =>
    intro c h
    show applyRules rest (applyRule ru c) = c
    rw [applyRule_noop (h ru (by simp))]
    exact ih fun x hx => h x (by simp [hx])

theorem controlsTransform_eq_rules (c : List Char) :
    controlsTransform c = applyRules controlsRules c := rfl

theorem appTransform_eq_rules (c : List Char) :
    appTransform c = applyRules appRules c := rfl

theorem map2dTransform_eq_rules (c : List Char) :
    map2dTransform c = applyRules map2dRules c := rfl

theorem geminiTransform_eq_rules (c : List Char) :
    geminiTransform c = applyRules geminiRules c := rfl

theorem typesTransform_eq_rules (c : List Char) :
    typesTransform c = applyRules typesRules c := rfl

/-! ## Driver lemmas -/

theorem runSeq_cons (p : List Char) (t : List Char → Except Err (List Char))
    (rest : List Step) (fs : FS) :
    runSeq ((p, t) :: rest) fs =
      match (runFixFile p t fs).2 with
      | none => runSeq rest (runFixFile p t fs).1
      | some e => ((runFixFile p t fs).1, some e) := rfl

theorem runSeq_append_ok {L1 : List Step} :
    ∀ {fs fs2 : FS}, runSeq L1 fs = (fs2, none) →
      ∀ L2 : List Step, runSeq (L1 ++ L2) fs = runSeq L2 fs2 := by
  induction L1 with
  | nil =>
    intro fs fs2 h L2
    have : fs = fs2 := by
      have := h
      simp only [runSeq, Prod.mk.injEq] at this
      exact this.1
    subst this
    rfl
  | cons st L1 ih =>
    intro fs fs2 h L2
    obtain ⟨p, t⟩ := st
    unfold runSeq at h
    rcases hrf : runFixFile p t fs with ⟨fs3, e⟩
    rw [hrf] at h
    cases e with
    | none =>
      rw [List.cons_append, runSeq_cons, hrf]
      exact ih h L2
    | some e =>
      exfalso
      simp only [Prod.mk.injEq] at h
      exact Option.noConfusion h.2

/-! ## Claim theorems -/

/-- C5: each fix function's in-memory transform is the left fold of its
rule list — rule `i+1` acts on the output of rule `i`, in source
order. -/
theorem claim_c5_fold_semantics :
    ∀ c : List Char,
      controlsTransform c = applyRules controlsRules c ∧
      appTransform c = applyRules appRules c ∧
      map2dTransform c = applyRules map2dRules c ∧
      geminiTransform c = applyRules geminiRules c ∧
      typesTransform c = applyRules typesRules c :=
  fun c => ⟨controlsTransform_eq_rules c, appTransform_eq_rules c,
    map2dTransform_eq_rules c, geminiTransform_eq_rules c, typesTransform_eq_rules c⟩

/-- C6: if none of a rule set's matchers occurs in the input (no literal
matcher is a substring, the arrow pattern has no match), the transform
returns the input unchanged. -/
theorem claim_c6_noop_on_absent :
    ∀ c : List Char,
      ((∀ ru ∈ controlsRules, ruleHits ru c = false) → controlsTransform c = c) ∧
      ((∀ ru ∈ appRules, ruleHits ru c = false) → appTransform c = c) ∧
      ((∀ ru ∈ map2dRules, ruleHits ru c = false) → map2dTransform c = c) ∧
      ((∀ ru ∈ geminiRules, ruleHits ru c = false) → geminiTransform c = c) ∧
      ((∀ ru ∈ typesRules, ruleHits ru c = false) → typesTransform c = c) := by
  intro c
  refine ⟨fun h => ?_, fun h => ?_, fun h => ?_, fun h => ?_, fun h => ?_⟩
  · rw [controlsTransform_eq_rules, applyRules_noop h]
  · rw [appTransform_eq_rules, applyRules_noop h]
  · rw [map2dTransform_eq_rules, applyRules_noop h]
  · rw [geminiTransform_eq_rules, applyRules_noop h]
  · rw [typesTransform_eq_rules, applyRules_noop h]

/-- Witness for C6 at the concrete content `"let x = 1;"`, in which no
matcher of any of the five rule sets occurs. -/
theorem claim_c6_noop_on_absent_witness :
    controlsTransform wNoop = wNoop ∧ appTransform wNoop = wNoop ∧
      map2dTransform wNoop = wNoop ∧ geminiTransform wNoop = wNoop ∧
      typesTransform wNoop = wNoop :=
  ⟨(claim_c6_noop_on_absent wNoop).1 (by decide),
    (claim_c6_noop_on_absent wNoop).2.1 (by decide),
    (claim_c6_noop_on_absent wNoop).2.2.1 (by decide),
    (claim_c6_noop_on_absent wNoop).2.2.2.1 (by decide),
    (claim_c6_noop_on_absent wNoop).2.2.2.2 (by decide)⟩

/-- C7: `fix_gemini` rewrites the literal-substitution scenario input
exactly as the specification states. -/
theorem claim_c7_literal_scenario : geminiTransform inC7 = outC7 := by decide

/-- C8: each in-memory transform is a pure function of the input
string — two runs on equal contents give byte-for-byte equal
outputs. -/
theorem claim_c8_determinism :
    ∀ c1 c2 : List Char, c1 = c2 →
      controlsTransform c1 = controlsTransform c2 ∧
      appTransform c1 = appTransform c2 ∧
      map2dTransform c1 = map2dTransform c2 ∧
      geminiTransform c1 = geminiTransform c2 ∧
      typesTransform c1 = typesTransform c2 := by
  intro c1 c2 h
  subst h
  exact ⟨rfl, rfl, rfl, rfl, rfl⟩

/-- Witness for C8 at the concrete content of the C7 scenario. -/
theorem claim_c8_determinism_witness :
    inC7 = inC7 ∧
      (controlsTransform inC7 = controlsTransform inC7 ∧
        appTransform inC7 = appTransform inC7 ∧
        map2dTransform inC7 = map2dTransform inC7 ∧
        geminiTransform inC7 = geminiTransform inC7 ∧
        typesTransform inC7 = typesTransform inC7) :=
  ⟨rfl, claim_c8_determinism inC7 inC7 rfl⟩

/-- C2 counterexample: on the capture-group scenario input,
`fix_controls` does not produce the output the specification states,
because the line-17 literal rule (`"value: any) => \x7b"` →
itself plus a suppression comment) fires before the line-18 rewrite
and appends the comment. -/
theorem claim_c2_counterexample : controlsTransform inC2 ≠ specC2 := by decide

/-- C2 amended: the scenario input transforms to the spec's expected
rewrite with the line-17 suppression comment appended after the brace,
and a second pass leaves that output unchanged. -/
theorem claim_c2_amended :
    controlsTransform inC2 = outC2 ∧ controlsTransform outC2 = outC2 :=
  ⟨by decide, by decide⟩

/-- C1 counterexample: the `fix_controls` rule set is not idempotent:
on `"value: any) => \x7b"` a second application duplicates the
suppression comment inserted by the line-17 rule. -/
theorem claim_c1_counterexample :
    controlsTransform (controlsTransform wCtrl) ≠ controlsTransform wCtrl := by
  decide

/-- C3: the shared read–transform–write skeleton of the five fix
functions (each conjunct ties one fix function to the skeleton) never
reaches the write when the in-memory transform fails: the file system
comes through unchanged and the error propagates. -/
theorem claim_c3_atomicity :
    (∀ (p : List Char) (t : List Char → Except Err (List Char)) (fs : FS)
        (c : List Char) (e : Err),
        lookupFS fs p = some c → t c = Except.error e →
        runFixFile p t fs = (fs, some e)) ∧
    fixControls = runFixFile controlsPath (liftTotal controlsTransform) ∧
    fixApp = runFixFile appPath (liftTotal appTransform) ∧
    fixMap2d = runFixFile map2dPath (liftTotal map2dTransform) ∧
    fixGemini = runFixFile geminiPath (liftTotal geminiTransform) ∧
    fixTypes = runFixFile typesPath (liftTotal typesTransform) := by
  refine ⟨?_, rfl, rfl, rfl, rfl, rfl⟩
  intro p t fs c e hl ht
  unfold runFixFile
  rw [hl]
  show (match t c with
    | Except.error e => (fs, some e)
    | Except.ok c2 => (setFS fs p c2, none)) = (fs, some e)
  rw [ht]

/-- Witness for C3: a transform failing with a malformed-pattern error
leaves the concrete one-file system untouched. -/
theorem claim_c3_atomicity_witness :
    runFixFile appPath (fun _ => Except.error Err.malformedPattern)
      [(appPath, wX)] = ([(appPath, wX)], some Err.malformedPattern) :=
  claim_c3_atomicity.1 appPath (fun _ => Except.error Err.malformedPattern)
    [(appPath, wX)] wX Err.malformedPattern (by decide) rfl

/-- C4: the driver processes exactly the five configured paths in
source order, and when an earlier segment of the run succeeds and the
next file is missing, the run aborts with that file's error while every
write the earlier segment performed is retained (no rollback). -/
theorem claim_c4_failure_isolation :
    driverSteps.map Prod.fst =
      [controlsPath, appPath, map2dPath, geminiPath, typesPath] ∧
    ∀ (L1 : List Step) (p : List Char) (t : List Char → Except Err (List Char))
      (L2 : List Step) (fs fs2 : FS),
      driverSteps = L1 ++ (p, t) :: L2 →
      runSeq L1 fs = (fs2, none) →
      lookupFS fs2 p = none →
      runDriver fs = (fs2, some (Err.fileNotFound p)) := by
  refine ⟨rfl, ?_⟩
  intro L1 p t L2 fs fs2 hsteps hok hmiss
  unfold runDriver
  rw [hsteps, runSeq_append_ok hok, runSeq_cons]
  unfold runFixFile
  rw [hmiss]

/-- Witness for C4: with only `components/Controls.tsx` present,
`fix_controls` is fully executed and written before the run aborts on
the missing `App.tsx`. -/
theorem claim_c4_failure_isolation_witness :
    runDriver [(controlsPath, wX)] =
      ([(controlsPath, wX)], some (Err.fileNotFound appPath)) :=
  claim_c4_failure_isolation.2
    [(controlsPath, liftTotal controlsTransform)]
    appPath (liftTotal appTransform)
    [(map2dPath, liftTotal map2dTransform),
      (geminiPath, liftTotal geminiTransform),
      (typesPath, liftTotal typesTransform)]
    [(controlsPath, wX)] [(controlsPath, wX)]
    rfl (by decide) (by decide)

/-- C10: with the file present, each of the five fix functions always
takes the success path: the in-memory transform (a total function in
this embedding; every pattern in the source is a fixed, valid regular
expression) returns a string and the write happens, with no error. -/
theorem claim_c10_totality :
    (∀ (fs : FS) (c : List Char), lookupFS fs controlsPath = some c →
      fixControls fs = (setFS fs controlsPath (controlsTransform c), none)) ∧
    (∀ (fs : FS) (c : List Char), lookupFS fs appPath = some c →
      fixApp fs = (setFS fs appPath (appTransform c), none)) ∧
    (∀ (fs : FS) (c : List Char), lookupFS fs map2dPath = some c →
      fixMap2d fs = (setFS fs map2dPath (map2dTransform c), none)) ∧
    (∀ (fs : FS) (c : List Char), lookupFS fs geminiPath = some c →
      fixGemini fs = (setFS fs geminiPath (geminiTransform c), none)) ∧
    (∀ (fs : FS) (c : List Char), lookupFS fs typesPath = some c →
      fixTypes fs = (setFS fs typesPath (typesTransform c), none)) := by
  refine ⟨fun fs c h => ?_, fun fs c h => ?_, fun fs c h => ?_,
    fun fs c h => ?_, fun fs c h => ?_⟩
  · unfold fixControls runFixFile liftTotal
    rw [h]
  · unfold fixApp runFixFile liftTotal
    rw [h]
  · unfold fixMap2d runFixFile liftTotal
    rw [h]
  · unfold fixGemini runFixFile liftTotal
    rw [h]
  · unfold fixTypes runFixFile liftTotal
    rw [h]

/-- Witness for C10 on a five-file system: every fix function succeeds
and writes. -/
theorem claim_c10_totality_witness :
    fixControls [(controlsPath, wX), (appPath, wX), (map2dPath, wX),
        (geminiPath, wX), (typesPath, wX)] =
      (setFS [(controlsPath, wX), (appPath, wX), (map2dPath, wX),
        (geminiPath, wX), (typesPath, wX)] controlsPath (controlsTransform wX),
        none) ∧
    fixTypes [(controlsPath, wX), (appPath, wX), (map2dPath, wX),
        (geminiPath, wX), (typesPath, wX)] =
      (setFS [(controlsPath, wX), (appPath, wX), (map2dPath, wX),
        (geminiPath, wX), (typesPath, wX)] typesPath (typesTransform wX),
        none) :=
  ⟨claim_c10_totality.1 _ wX (by decide),
    claim_c10_totality.2.2.2.2 _ wX (by decide)⟩

/-! ## Idempotence of `fix_types` (and non-idempotence of the rest)

The single `fix_types` rule `geoJson: any;` → `geoJson: Record<string,
unknown>;` is idempotent on every input: its replacement contains no
occurrence of the matcher, no non-empty proper suffix of the
replacement is a prefix of the matcher, and no non-empty proper suffix
of the matcher is a prefix of the replacement, so a replacement can
never create a new occurrence. -/

theorem occursIn_cons (m : List Char) (c : Char) (cs : List Char) :
    occursIn m (c :: cs) = (m.isPrefixOf (c :: cs) || occursIn m cs) := rfl

theorem prefix_of_append_of_le {l u v : List Char}
    (h : l <+: u ++ v) (hl : l.length ≤ u.length) : l <+: u := by
  rw [List.prefix_iff_eq_take] at h ⊢
  rw [List.take_append_of_le_length hl] at h
  exact h

theorem prefix_split_of_append {l u v : List Char}
    (h : l <+: u ++ v) (hl : u.length < l.length) :
    l.take u.length = u ∧ l.drop u.length <+: v := by
  rw [List.prefix_iff_eq_take] at h
  rw [List.take_append_eq_append_take, List.take_of_length_le (le_of_lt hl)] at h
  constructor
  · rw [h, List.take_left]
  · rw [h, List.drop_left]
    exact List.take_prefix _ _

/-- Head lemma: a non-empty suffix of the matcher that is a prefix of
the rewritten string was already a prefix of the input. -/
theorem repA (m r : List Char) (hmr : m.length ≤ r.length)
    (hnos : ∀ j, j < m.length → (m.drop j).isPrefixOf r = false) :
    ∀ (n : Nat) (s : List Char), s.length ≤ n → ∀ j, j < m.length →
      m.drop j <+: replaceAll m r s → m.drop j <+: s := by
  intro n
  induction n with
  | zero =>
    intro s hs j hj hp
    have : s = [] := List.length_eq_zero.mp (Nat.le_zero.mp hs)
    subst this
    rw [replaceAll_nil] at hp
    have : m.drop j = [] := List.prefix_nil.mp hp
    have := congrArg List.length this
    simp only [List.length_drop, List.length_nil] at this
    omega
  | succ n ih =>
    intro s hs j hj hp
    cases s with
    | nil =>
      rw [replaceAll_nil] at hp
      have : m.drop j = [] := List.prefix_nil.mp hp
      have := congrArg List.length this
      simp only [List.length_drop, List.length_nil] at this
      omega
    | cons c cs =>
      rw [replaceAll_cons] at hp
      by_cases h : (m.isPrefixOf (c :: cs) && !m.isEmpty) = true
      · rw [if_pos h] at hp
        exfalso
        have hlen : (m.drop j).length ≤ r.length := by
          simp only [List.length_drop]
          omega
        have hpr : m.drop j <+: r := prefix_of_append_of_le hp hlen
        have hb := List.isPrefixOf_iff_prefix.mpr hpr
        rw [hnos j hj] at hb
        exact Bool.noConfusion hb
      · rw [if_neg h] at hp
        rcases hq : m.drop j with _ | ⟨qh, qt⟩
        · have := congrArg List.length hq
          simp only [List.length_drop, List.length_nil] at this
          omega
        · rw [hq] at hp
          rw [List.cons_prefix_cons] at hp
          obtain ⟨hqc, hqt⟩ := hp
          have hqt2 : qt = List.drop (j + 1) m := by
            have h5 : (List.drop j m).drop 1 = List.drop (j + 1) m := by
              rw [List.drop_drop]
            rw [hq] at h5
            simpa using h5
          rw [List.cons_prefix_cons]
          refine ⟨hqc, ?_⟩
          by_cases hj1 : j + 1 < m.length
          · have hcs : cs.length ≤ n := by simpa using hs
            rw [hqt2] at hqt
            have := ih cs hcs (j + 1) hj1 hqt
            rw [hqt2]
            exact this
          · have hnil : List.drop (j + 1) m = [] := List.drop_eq_nil_of_le (by omega)
            rw [hqt2, hnil]
            exact List.nil_prefix

/-- No occurrence of the matcher overlaps a freshly inserted copy of
the replacement. -/
theorem occursIn_append_left_r (m r : List Char)
    (hnoc : ∀ i, i < r.length → m.isPrefixOf (r.drop i) = false)
    (hnosp : ∀ i, i < r.length → r.length - i < m.length →
      r.drop i ≠ m.take (r.length - i)) :
    ∀ (u Z : List Char), u <:+ r → occursIn m Z = false →
      occursIn m (u ++ Z) = false := by
  intro u
  induction u with
  | nil =>
    intro Z _ hZ
    simpa using hZ
  | cons x u2 ih =>
    intro Z hsuf hZ
    rw [List.cons_append, occursIn_cons, Bool.or_eq_false_iff]
    constructor
    · rcases hP : m.isPrefixOf (x :: (u2 ++ Z)) with _ | _
      · rfl
      · exfalso
        have hpre : m <+: (x :: u2) ++ Z := by
          rw [List.cons_append]
          exact List.isPrefixOf_iff_prefix.mp hP
        obtain ⟨pre, hpre2⟩ := hsuf
        have hdrop : r.drop pre.length = x :: u2 := by
          rw [← hpre2, List.drop_left]
        have hlen : pre.length + (x :: u2).length = r.length := by
          rw [← hpre2]
          simp
        have hpl : pre.length < r.length := by
          simp only [List.length_cons] at hlen
          omega
        rcases le_or_lt m.length (x :: u2).length with hc | hc
        · have hmu : m <+: x :: u2 := prefix_of_append_of_le hpre hc
          have hb := List.isPrefixOf_iff_prefix.mpr hmu
          rw [← hdrop] at hb
          rw [hnoc pre.length hpl] at hb
          exact Bool.noConfusion hb
        · obtain ⟨htake, -⟩ := prefix_split_of_append hpre hc
          have heq : r.length - pre.length = (x :: u2).length :=
            Nat.sub_eq_of_eq_add (by rw [← hlen, Nat.add_comm])
          have hsz : r.length - pre.length < m.length := by
            rw [heq]
            exact hc
          have hne := hnosp pre.length hpl hsz
          rw [hdrop, heq] at hne
          exact hne htake.symm
    · exact ih Z (List.IsSuffix.trans (List.suffix_cons x u2) hsuf) hZ

/-- The rewritten string contains no occurrence of the matcher. -/
theorem repNoOcc (m r : List Char) (hm : m ≠ []) (hmr : m.length ≤ r.length)
    (hnos : ∀ j, j < m.length → (m.drop j).isPrefixOf r = false)
    (hnoc : ∀ i, i < r.length → m.isPrefixOf (r.drop i) = false)
    (hnosp : ∀ i, i < r.length → r.length - i < m.length →
      r.drop i ≠ m.take (r.length - i)) :
    ∀ (n : Nat) (s : List Char), s.length ≤ n →
      occursIn m (replaceAll m r s) = false := by
  intro n
  induction n with
  | zero =>
    intro s hs
    have : s = [] := List.length_eq_zero.mp (Nat.le_zero.mp hs)
    subst this
    rw [replaceAll_nil]
    show m.isEmpty = false
    simpa using hm
  | succ n ih =>
    intro s hs
    cases s with
    | nil =>
      rw [replaceAll_nil]
      show m.isEmpty = false
      simpa using hm
    | cons c cs =>
      have hcs : cs.length ≤ n := by simpa using hs
      rw [replaceAll_cons]
      by_cases h : (m.isPrefixOf (c :: cs) && !m.isEmpty) = true
      · rw [if_pos h]
        exact occursIn_append_left_r m r hnoc hnosp r _ (List.suffix_refl r)
          (ih (List.drop (m.length - 1) cs)
            (le_trans (by simp [List.length_drop]) hcs))
      · rw [if_neg h]
        rw [occursIn_cons, Bool.or_eq_false_iff]
        refine ⟨?_, ih cs hcs⟩
        rcases hP : m.isPrefixOf (c :: replaceAll m r cs) with _ | _
        · rfl
        · exfalso
          have hpre : m <+: c :: replaceAll m r cs :=
            List.isPrefixOf_iff_prefix.mp hP
          obtain ⟨mh, mt, hmc⟩ := List.exists_cons_of_ne_nil hm
          have hpre2 : mh :: mt <+: c :: replaceAll m r cs := by
            rw [← hmc]
            exact hpre
          rw [List.cons_prefix_cons] at hpre2
          obtain ⟨hhead, htail⟩ := hpre2
          have hmt : mt = List.drop 1 m := by
            rw [hmc]
            simp
          have hfull : m.isPrefixOf (c :: cs) = true := by
            rcases hlt : mt with _ | ⟨y, ys⟩
            · rw [List.isPrefixOf_iff_prefix, hmc, hlt]
              rw [List.cons_prefix_cons]
              exact ⟨hhead, List.nil_prefix⟩
            · have hj1 : 1 < m.length := by
                have := congrArg List.length hmc
                rw [hlt] at this
                simp at this
                omega
              have hdp : List.drop 1 m <+: replaceAll m r cs := by
                rw [← hmt]
                exact htail
              have hin := repA m r hmr hnos n cs hcs 1 hj1 hdp
              rw [List.isPrefixOf_iff_prefix, hmc]
              rw [List.cons_prefix_cons]
              refine ⟨hhead, ?_⟩
              rw [hmt]
              exact hin
          have hcond : (m.isPrefixOf (c :: cs) && !m.isEmpty) = true := by
            rw [hfull]
            have : m.isEmpty = false := by
              rw [hmc]
              rfl
            rw [this]
            rfl
          exact h hcond

/-- `fix_types`' transform is idempotent on every input. -/
theorem typesTransform_idem (c : List Char) :
    typesTransform (typesTransform c) = typesTransform c := by
  show replaceAll t99m t99r (replaceAll t99m t99r c) = replaceAll t99m t99r c
  apply replaceAll_no_occurs
  exact repNoOcc t99m t99r (by decide) (by decide) (by decide) (by decide)
    (by decide) c.length c (le_refl _)

/-- C1 amended: of the five rule sets only `fix_types`' is idempotent
for every input; each of the other four has a literal rule whose
replacement contains its own matcher (the inserted suppression
comments), and re-applying the transform to its own output duplicates
that comment. -/
theorem claim_c1_amended :
    (∀ c : List Char, typesTransform (typesTransform c) = typesTransform c) ∧
    controlsTransform (controlsTransform wCtrl) ≠ controlsTransform wCtrl ∧
    appTransform (appTransform wApp) ≠ appTransform wApp ∧
    map2dTransform (map2dTransform wMap) ≠ map2dTransform wMap ∧
    geminiTransform (geminiTransform wGem) ≠ geminiTransform wGem :=
  ⟨typesTransform_idem, by decide, by decide, by decide, by decide⟩

/-! ## Idempotence of the arrow-pattern substitution (C9)

The replacement `\1 \x7b \2; \x7d\x7d` inserts ` \x7b ` immediately
after the arrow of group 1, and the body class of group 2 excludes
braces, so no match survives in the output.  The proof shows that the
output of `reSubArrow` contains no match at any position, from which
idempotence follows. -/

theorem takeWhile_append_stop {p : Char → Bool} {l1 : List Char}
    (h : ∀ x ∈ l1, p x = true) {b : Char} (hb : p b = false) (l2 : List Char) :
    List.takeWhile p (l1 ++ b :: l2) = l1 := by
  rw [List.takeWhile_append_of_pos h, List.takeWhile_cons_of_neg (by simp [hb])]
  simp

theorem dropWhile_append_stop {p : Char → Bool} {l1 : List Char}
    (h : ∀ x ∈ l1, p x = true) {b : Char} (hb : p b = false) (l2 : List Char) :
    List.dropWhile p (l1 ++ b :: l2) = b :: l2 := by
  rw [List.dropWhile_append_of_pos h, List.dropWhile_cons_of_neg (by simp [hb])]

theorem takeWhile_append_of_mem_neg {p : Char → Bool} {l1 : List Char}
    (h : ∃ x ∈ l1, p x = false) (l2 : List Char) :
    List.takeWhile p (l1 ++ l2) = List.takeWhile p l1 := by
  induction l1 with
  | nil => simp at h
  | cons c cs ih =>
    rcases hpc : p c with _ | _
    · rw [List.cons_append, List.takeWhile_cons_of_neg (by simp [hpc]),
        List.takeWhile_cons_of_neg (by simp [hpc])]
    · rw [List.cons_append, List.takeWhile_cons_of_pos hpc,
        List.takeWhile_cons_of_pos hpc]
      obtain ⟨x, hx, hpx⟩ := h
      rcases List.mem_cons.mp hx with rfl | hx2
      · rw [hpc] at hpx
        exact Bool.noConfusion hpx
      · rw [ih ⟨x, hx2, hpx⟩]

theorem dropWhile_append_of_mem_neg {p : Char → Bool} {l1 : List Char}
    (h : ∃ x ∈ l1, p x = false) (l2 : List Char) :
    List.dropWhile p (l1 ++ l2) = List.dropWhile p l1 ++ l2 := by
  induction l1 with
  | nil => simp at h
  | cons c cs ih =>
    rcases hpc : p c with _ | _
    · rw [List.cons_append, List.dropWhile_cons_of_neg (by simp [hpc]),
        List.dropWhile_cons_of_neg (by simp [hpc]), List.cons_append]
    · rw [List.cons_append, List.dropWhile_cons_of_pos hpc,
        List.dropWhile_cons_of_pos hpc]
      obtain ⟨x, hx, hpx⟩ := h
      rcases List.mem_cons.mp hx with rfl | hx2
      · rw [hpc] at hpx
        exact Bool.noConfusion hpx
      · exact ih ⟨x, hx2, hpx⟩

theorem dropWhile_ne_nil_of_mem_neg {p : Char → Bool} {l : List Char}
    (h : ∃ x ∈ l, p x = false) : List.dropWhile p l ≠ [] := by
  induction l with
  | nil => simp at h
  | cons c cs ih =>
    rcases hpc : p c with _ | _
    · rw [List.dropWhile_cons_of_neg (by simp [hpc])]
      simp
    · rw [List.dropWhile_cons_of_pos hpc]
      obtain ⟨x, hx, hpx⟩ := h
      rcases List.mem_cons.mp hx with rfl | hx2
      · rw [hpc] at hpx
        exact Bool.noConfusion hpx
      · exact ih ⟨x, hx2, hpx⟩

theorem mem_of_mem_takeWhile {p : Char → Bool} {l : List Char} {x : Char}
    (h : x ∈ List.takeWhile p l) : p x = true := by
  induction l with
  | nil => simp at h
  | cons c cs ih =>
    rcases hpc : p c with _ | _
    · rw [List.takeWhile_cons_of_neg (by simp [hpc])] at h
      simp at h
    · rw [List.takeWhile_cons_of_pos hpc] at h
      rcases List.mem_cons.mp h with rfl | h2
      · exact hpc
      · exact ih h2

theorem suffix_append_split {u A B : List Char} (h : u <:+ A ++ B) :
    u <:+ B ∨ ∃ u1, u1 <:+ A ∧ u1 ≠ [] ∧ u = u1 ++ B := by
  obtain ⟨pre, hpre⟩ := h
  rcases le_or_lt A.length pre.length with hc | hc
  · left
    have hu : u = List.drop pre.length (A ++ B) := by
      rw [← hpre, List.drop_left]
    rw [List.drop_append_eq_append_drop] at hu
    rw [List.drop_eq_nil_of_le hc] at hu
    simp only [List.nil_append] at hu
    rw [hu]
    exact List.drop_suffix _ _
  · right
    refine ⟨List.drop pre.length A, List.drop_suffix _ _, ?_, ?_⟩
    · intro hnil
      have := congrArg List.length hnil
      simp only [List.length_drop, List.length_nil] at this
      omega
    · have hu : u = List.drop pre.length (A ++ B) := by
        rw [← hpre, List.drop_left]
      rw [List.drop_append_of_le_length (le_of_lt hc)] at hu
      exact hu

theorem head_mem_of_suffix {u l : List Char} {c : Char} {cs : List Char}
    (h : u <:+ l) (hu : u = c :: cs) : c ∈ l := by
  obtain ⟨pre, hpre⟩ := h
  rw [← hpre, hu]
  simp

theorem matchAt_none_of_headMatch_none {V t : List Char}
    (h : headMatch V t = none) : matchAt V t = none := by
  unfold matchAt
  rw [h]

theorem matchAt_none_of_tailMatch_none {V t g1 t6 : List Char}
    (hh : headMatch V t = some (g1, t6)) (ht : tailMatch t6 = none) :
    matchAt V t = none := by
  unfold matchAt
  rw [hh]
  show (match tailMatch t6 with
    | none => none
    | some (g2, rest) => some (g1, g2, rest)) = none
  rw [ht]

theorem tailMatch_none_of_matchAt_none {V t g1 t6 : List Char}
    (hm : matchAt V t = none) (hh : headMatch V t = some (g1, t6)) :
    tailMatch t6 = none := by
  unfold matchAt at hm
  rw [hh] at hm
  have hm2 : (match tailMatch t6 with
    | none => none
    | some (g2, rest) => some (g1, g2, rest)) = none := hm
  rcases ht : tailMatch t6 with _ | ⟨g2, rest⟩
  · rfl
  · rw [ht] at hm2
    exact Option.noConfusion hm2

theorem headMatch_cons3 (V : List Char) (c1 c2 c3 : Char) (t3 : List Char) :
    headMatch V (c1 :: c2 :: c3 :: t3) =
      if c1 == 'o' && c2 == 'n' && isUpperA c3 then
        match List.dropWhile isLetterA t3 with
        | d1 :: d2 :: t4 =>
          if d1 == '=' && d2 == '\x7b' then
            match List.dropWhile isPySpace (takeV V t4).2 with
            | e1 :: e2 :: t6 =>
              if e1 == '=' && e2 == '>' then
                some (c1 :: c2 :: c3 ::
                  (List.takeWhile isLetterA t3 ++ d1 :: d2 ::
                    ((takeV V t4).1 ++ List.takeWhile isPySpace (takeV V t4).2 ++
                      [e1, e2])), t6)
              else none
            | _ => none
          else none
        | _ => none
      else none := rfl

theorem matchAt_cons_ne_o {V : List Char} {c : Char} (t : List Char)
    (hc : c ≠ 'o') : matchAt V (c :: t) = none := by
  apply matchAt_none_of_headMatch_none
  rcases t with _ | ⟨c2, _ | ⟨c3, t3⟩⟩
  · rfl
  · rfl
  · rw [headMatch_cons3]
    have hb : (c == 'o') = false := by
      simp [hc]
    rw [hb]
    simp

theorem contains_false_of_not_mem {V : List Char} {x : Char} (h : x ∉ V) :
    V.contains x = false := by
  simp [List.contains, h]

theorem contains_true_of_mem {V : List Char} {x : Char} (h : x ∈ V) :
    V.contains x = true := by
  simp [List.contains, h]

theorem takeV_paste {V : List Char} (vp ws z : List Char)
    (hvp : vp = [] ∨ ∃ v0, vp = [v0] ∧ v0 ∈ V)
    (hws : ∀ x ∈ ws, isPySpace x = true)
    (hV2 : '=' ∉ V) (hV3 : ∀ x ∈ V, isPySpace x = false) :
    takeV V (vp ++ ws ++ '=' :: '>' :: z) = (vp, ws ++ '=' :: '>' :: z) := by
  rcases hvp with rfl | ⟨v0, rfl, hv0⟩
  · simp only [List.nil_append]
    cases ws with
    | nil =>
      simp only [List.nil_append]
      rw [takeV_cons, contains_false_of_not_mem hV2]
      simp
    | cons w ws2 =>
      rw [List.cons_append, takeV_cons]
      have hw : w ∉ V := by
        intro hmem
        have := hV3 w hmem
        rw [hws w (by simp)] at this
        exact Bool.noConfusion this
      rw [contains_false_of_not_mem hw]
      simp
  · simp only [List.cons_append, List.nil_append]
    rw [takeV_cons, contains_true_of_mem hv0]
    simp

theorem headMatch_paste {V : List Char} (U : Char) (ls vp ws z : List Char)
    (hU : isUpperA U = true)
    (hls : ∀ x ∈ ls, isLetterA x = true)
    (hvp : vp = [] ∨ ∃ v0, vp = [v0] ∧ v0 ∈ V)
    (hws : ∀ x ∈ ws, isPySpace x = true)
    (hV2 : '=' ∉ V) (hV3 : ∀ x ∈ V, isPySpace x = false) :
    headMatch V
      ('o' :: 'n' :: U :: (ls ++ '=' :: '\x7b' :: (vp ++ ws ++ '=' :: '>' :: z))) =
      some ('o' :: 'n' :: U :: (ls ++ '=' :: '\x7b' :: (vp ++ ws ++ ['=', '>'])), z) := by
  rw [headMatch_cons3]
  have hcond : ('o' == 'o' && 'n' == 'n' && isUpperA U) = true := by
    rw [hU]
    rfl
  rw [hcond, if_pos rfl]
  rw [dropWhile_append_stop hls (by decide : isLetterA '=' = false)]
  rw [takeWhile_append_stop hls (by decide : isLetterA '=' = false)]
  show (if ('=' == '=' && '\x7b' == '\x7b') = true then _ else none) = _
  have hc2 : ('=' == '=' && '\x7b' == '\x7b') = true := rfl
  rw [hc2, if_pos rfl]
  rw [takeV_paste vp ws z hvp hws hV2 hV3]
  rw [dropWhile_append_stop hws (by decide : isPySpace '=' = false)]
  rw [takeWhile_append_stop hws (by decide : isPySpace '=' = false)]
  show (if ('=' == '=' && '>' == '>') = true then _ else none) = _
  have hc3 : ('=' == '=' && '>' == '>') = true := rfl
  rw [hc3, if_pos rfl]

theorem takeV_split (V t : List Char) :
    t = (takeV V t).1 ++ (takeV V t).2 ∧
      ((takeV V t).1 = [] ∨ ∃ v0, (takeV V t).1 = [v0] ∧ v0 ∈ V) := by
  cases t with
  | nil => simp
  | cons x t5 =>
    rw [takeV_cons]
    rcases hc : V.contains x with _ | _
    · simp
    · constructor
      · simp
      · right
        refine ⟨x, by simp, ?_⟩
        have h2 := hc
        simp [List.contains] at h2
        exact h2

theorem headMatch_inv {V t g1 t6 : List Char} (h : headMatch V t = some (g1, t6)) :
    ∃ (U : Char) (ls vp ws : List Char),
      t = 'o' :: 'n' :: U :: (ls ++ '=' :: '\x7b' :: (vp ++ ws ++ '=' :: '>' :: t6)) ∧
      g1 = 'o' :: 'n' :: U :: (ls ++ '=' :: '\x7b' :: (vp ++ ws ++ ['=', '>'])) ∧
      isUpperA U = true ∧ (∀ x ∈ ls, isLetterA x = true) ∧
      (vp = [] ∨ ∃ v0, vp = [v0] ∧ v0 ∈ V) ∧ (∀ x ∈ ws, isPySpace x = true) := by
  unfold headMatch at h
  split at h
  · rename_i c1 c2 c3 t3
    split at h
    · rename_i hcond
      split at h
      · rename_i d1 d2 t4 hd
        split at h
        · rename_i hcond2
          split at h
          · rename_i e1 e2 t6x he
            split at h
            · rename_i hcond3
              simp only [Option.some.injEq, Prod.mk.injEq] at h
              obtain ⟨hg1, ht6⟩ := h
              simp only [Bool.and_eq_true, beq_iff_eq] at hcond hcond2 hcond3
              obtain ⟨⟨rfl, rfl⟩, hU⟩ := hcond
              obtain ⟨rfl, rfl⟩ := hcond2
              obtain ⟨rfl, rfl⟩ := hcond3
              subst ht6
              refine ⟨c3, List.takeWhile isLetterA t3, (takeV V t4).1,
                List.takeWhile isPySpace (takeV V t4).2, ?_, ?_, hU,
                fun x hx => mem_of_mem_takeWhile hx, (takeV_split V t4).2,
                fun x hx => mem_of_mem_takeWhile hx⟩
              · have h3 : t3 = List.takeWhile isLetterA t3 ++
                    ('=' :: '\x7b' :: t4) := by
                  conv_lhs => rw [← List.takeWhile_append_dropWhile isLetterA t3]
                  rw [hd]
                have h4 : t4 = (takeV V t4).1 ++ (takeV V t4).2 :=
                  (takeV_split V t4).1
                have h5 : (takeV V t4).2 = List.takeWhile isPySpace (takeV V t4).2 ++
                    ('=' :: '>' :: t6x) := by
                  conv_lhs =>
                    rw [← List.takeWhile_append_dropWhile isPySpace (takeV V t4).2]
                  rw [he]
                conv_lhs => rw [h3, h4, h5]
                simp [List.append_assoc]
              · exact hg1.symm
            · exact absurd h (by simp)
          · exact absurd h (by simp)
        · exact absurd h (by simp)
      · exact absurd h (by simp)
    · exact absurd h (by simp)
  · exact absurd h (by simp)

theorem tailCheck_inv {t6 : List Char} {a : Nat} {g2 rest : List Char}
    (h : tailCheck t6 a = some (g2, rest)) :
    t6 = List.take a t6 ++ (g2 ++ '\x7d' :: rest) ∧ g2 ≠ [] ∧
      ∀ x ∈ g2, isBChar x = true := by
  unfold tailCheck at h
  split at h
  · rename_i k rest2 hd
    split at h
    · rename_i hcond
      simp only [Option.some.injEq, Prod.mk.injEq] at h
      obtain ⟨hg2, hrest⟩ := h
      simp only [Bool.and_eq_true, Bool.not_eq_true', beq_iff_eq] at hcond
      obtain ⟨hne, rfl⟩ := hcond
      subst hrest
      refine ⟨?_, ?_, ?_⟩
      · conv_lhs => rw [← List.take_append_drop a t6]
        congr 1
        conv_lhs =>
          rw [← List.takeWhile_append_dropWhile isBChar (List.drop a t6)]
        rw [hd, hg2]
      · rw [← hg2]
        intro hnil
        rw [hnil] at hne
        exact Bool.noConfusion hne
      · intro x hx
        rw [← hg2] at hx
        exact mem_of_mem_takeWhile hx
    · exact absurd h (by simp)
  · exact absurd h (by simp)

theorem tailTry_inv :
    ∀ (a0 : Nat) {t6 g2 rest : List Char}, tailTry t6 a0 = some (g2, rest) →
      ∃ a, a ≤ a0 ∧ tailCheck t6 a = some (g2, rest) := by
  intro a0
  induction a0 with
  | zero => exact fun h => ⟨0, le_refl 0, h⟩
  | succ a0 ih =>
    intro t6 g2 rest h
    unfold tailTry at h
    rcases hc : tailCheck t6 (a0 + 1) with _ | r
    · rw [hc] at h
      obtain ⟨a, ha, hac⟩ := ih h
      exact ⟨a, le_trans ha (Nat.le_succ a0), hac⟩
    · rw [hc] at h
      cases r with
      | mk x y =>
        simp only [Option.some.injEq, Prod.mk.injEq] at h
        obtain ⟨rfl, rfl⟩ := h
        exact ⟨a0 + 1, le_refl _, hc⟩

theorem tailMatch_inv {t6 g2 rest : List Char}
    (h : tailMatch t6 = some (g2, rest)) :
    ∃ wsA, t6 = wsA ++ (g2 ++ '\x7d' :: rest) ∧
      (∀ x ∈ wsA, isPySpace x = true) ∧ g2 ≠ [] ∧
      ∀ x ∈ g2, isBChar x = true := by
  obtain ⟨a, ha, hc⟩ := tailTry_inv _ h
  obtain ⟨hsplit, hne, hB⟩ := tailCheck_inv hc
  refine ⟨List.take a t6, hsplit, ?_, hne, hB⟩
  intro x hx
  have h1 : List.take a t6 = List.take a (List.takeWhile isPySpace t6) := by
    conv_lhs => rw [← List.takeWhile_append_dropWhile isPySpace t6]
    rw [List.take_append_of_le_length ha]
  rw [h1] at hx
  have hx2 : x ∈ List.takeWhile isPySpace t6 :=
    (List.take_sublist _ _).subset hx
  exact mem_of_mem_takeWhile hx2

theorem matchAt_inv {V t g1 g2 rest : List Char}
    (h : matchAt V t = some (g1, g2, rest)) :
    ∃ (U : Char) (ls vp ws wsA : List Char),
      g1 = 'o' :: 'n' :: U :: (ls ++ '=' :: '\x7b' :: (vp ++ ws ++ ['=', '>'])) ∧
      t = g1 ++ wsA ++ g2 ++ '\x7d' :: rest ∧
      isUpperA U = true ∧ (∀ x ∈ ls, isLetterA x = true) ∧
      (vp = [] ∨ ∃ v0, vp = [v0] ∧ v0 ∈ V) ∧
      (∀ x ∈ ws, isPySpace x = true) ∧
      (∀ x ∈ wsA, isPySpace x = true) ∧ g2 ≠ [] ∧
      ∀ x ∈ g2, isBChar x = true := by
  unfold matchAt at h
  split at h
  · exact absurd h (by simp)
  · rename_i p g1x t6 hh
    split at h
    · exact absurd h (by simp)
    · rename_i q g2x restx ht
      simp only [Option.some.injEq, Prod.mk.injEq] at h
      obtain ⟨rfl, rfl, rfl⟩ := h
      obtain ⟨U, ls, vp, ws, hteq, hg1, hU, hls, hvp, hws⟩ := headMatch_inv hh
      obtain ⟨wsA, ht6, hwsA, hne, hB⟩ := tailMatch_inv ht
      refine ⟨U, ls, vp, ws, wsA, hg1, ?_, hU, hls, hvp, hws, hwsA, hne, hB⟩
      rw [hteq, ht6, hg1]
      simp [List.append_assoc]

theorem tailMatch_insOpen (z : List Char) :
    tailMatch (' ' :: '\x7b' :: z) = none := by
  have hw : List.takeWhile isPySpace (' ' :: '\x7b' :: z) = [' '] := by
    rw [List.takeWhile_cons_of_pos (by decide : isPySpace ' ' = true),
      List.takeWhile_cons_of_neg (by decide : ¬ isPySpace '\x7b' = true)]
  unfold tailMatch
  rw [hw]
  show tailTry (' ' :: '\x7b' :: z) 1 = none
  have hc1 : tailCheck (' ' :: '\x7b' :: z) 1 = none := by
    unfold tailCheck
    have : List.drop 1 (' ' :: '\x7b' :: z) = '\x7b' :: z := rfl
    rw [this]
    rw [List.dropWhile_cons_of_neg (by decide : ¬ isBChar '\x7b' = true)]
    rw [List.takeWhile_cons_of_neg (by decide : ¬ isBChar '\x7b' = true)]
    simp
  have hc0 : tailCheck (' ' :: '\x7b' :: z) 0 = none := by
    unfold tailCheck
    have : List.drop 0 (' ' :: '\x7b' :: z) = ' ' :: '\x7b' :: z := rfl
    rw [this]
    rw [List.dropWhile_cons_of_pos (by decide : isBChar ' ' = true),
      List.dropWhile_cons_of_neg (by decide : ¬ isBChar '\x7b' = true)]
    simp
  unfold tailTry
  rw [hc1]
  show tailTry (' ' :: '\x7b' :: z) 0 = none
  unfold tailTry
  exact hc0

theorem matchAt_letters_blocked {V : List Char} (σ vp ws z : List Char)
    (hσ : ∀ x ∈ σ, isLetterA x = true)
    (hvp : vp = [] ∨ ∃ v0, vp = [v0] ∧ v0 ∈ V)
    (hws : ∀ x ∈ ws, isPySpace x = true)
    (hV2 : '=' ∉ V) (hV3 : ∀ x ∈ V, isPySpace x = false) :
    matchAt V
      (σ ++ '=' :: '\x7b' :: (vp ++ ws ++ '=' :: '>' :: (' ' :: '\x7b' :: z))) =
      none := by
  rcases σ with _ | ⟨x1, _ | ⟨x2, _ | ⟨x3, σ3⟩⟩⟩
  · exact matchAt_cons_ne_o _ (by decide)
  · apply matchAt_none_of_headMatch_none
    rw [List.cons_append, List.nil_append, headMatch_cons3]
    have hfalse : (x1 == 'o' && '=' == 'n' && isUpperA '\x7b') = false := by
      rw [(by decide : ('=' == 'n') = false)]
      simp
    rw [hfalse]
    simp
  · apply matchAt_none_of_headMatch_none
    rw [List.cons_append, List.cons_append, List.nil_append, headMatch_cons3]
    have hfalse : (x1 == 'o' && x2 == 'n' && isUpperA '=') = false := by
      rw [(by decide : isUpperA '=' = false)]
      simp
    rw [hfalse]
    simp
  · rcases hcond : (x1 == 'o' && x2 == 'n' && isUpperA x3) with _ | _
    · apply matchAt_none_of_headMatch_none
      rw [List.cons_append, List.cons_append, List.cons_append, headMatch_cons3,
        hcond]
      simp
    · simp only [Bool.and_eq_true, beq_iff_eq] at hcond
      obtain ⟨⟨rfl, rfl⟩, hU3⟩ := hcond
      have hh := headMatch_paste (V := V) x3 σ3 vp ws (' ' :: '\x7b' :: z) hU3
        (fun x hx => hσ x (by simp [hx])) hvp hws hV2 hV3
      have hh2 : headMatch V
          (('o' :: 'n' :: x3 :: σ3) ++ '=' :: '\x7b' ::
            (vp ++ ws ++ '=' :: '>' :: (' ' :: '\x7b' :: z))) =
          some ('o' :: 'n' :: x3 ::
            (σ3 ++ '=' :: '\x7b' :: (vp ++ ws ++ ['=', '>'])), ' ' :: '\x7b' :: z) := by
        rw [List.cons_append, List.cons_append, List.cons_append]
        exact hh
      exact matchAt_none_of_tailMatch_none hh2 (tailMatch_insOpen z)

theorem g1_as_A1 (U : Char) (ls T1 X : List Char) :
    ('o' :: 'n' :: U :: (ls ++ '=' :: '\x7b' :: T1)) ++ X =
      ('o' :: 'n' :: U :: ls ++ ['=']) ++ '\x7b' :: (T1 ++ X) := by
  simp [List.append_assoc]

theorem semicolon_not_mem_A1 {U : Char} {ls : List Char} (hU : isUpperA U = true)
    (hls : ∀ x ∈ ls, isLetterA x = true) :
    ';' ∉ 'o' :: 'n' :: U :: ls ++ ['='] := by
  intro hmem
  simp only [List.cons_append, List.mem_cons, List.mem_append,
    List.mem_singleton] at hmem
  rcases hmem with h | h | h | h | h
  · exact absurd h (by decide)
  · exact absurd h (by decide)
  · rw [← h] at hU
    exact absurd hU (by decide)
  · have := hls ';' h
    exact absurd this (by decide)
  · exact absurd h (by decide)

theorem lbrace_not_mem_A1 {U : Char} {ls : List Char} (hU : isUpperA U = true)
    (hls : ∀ x ∈ ls, isLetterA x = true) :
    '\x7b' ∉ 'o' :: 'n' :: U :: ls ++ ['='] := by
  intro hmem
  simp only [List.cons_append, List.mem_cons, List.mem_append,
    List.mem_singleton] at hmem
  rcases hmem with h | h | h | h | h
  · exact absurd h (by decide)
  · exact absurd h (by decide)
  · rw [← h] at hU
    exact absurd hU (by decide)
  · have := hls '\x7b' h
    exact absurd this (by decide)
  · exact absurd h (by decide)

theorem matchAt_bodyregion_blocked {V : List Char} (ρ w : List Char)
    (hρ : ∀ x ∈ ρ, isBChar x = true) :
    matchAt V (ρ ++ ';' :: w) = none := by
  rcases hm : matchAt V (ρ ++ ';' :: w) with _ | ⟨g1, g2, rest⟩
  · rfl
  · exfalso
    obtain ⟨U, ls, vp, ws, wsA, hg1, hteq, hU, hls, hvp, hws, hwsA, hne, hB⟩ :=
      matchAt_inv hm
    have hteq2 : ρ ++ ';' :: w =
        ('o' :: 'n' :: U :: ls ++ ['=']) ++ '\x7b' ::
          (vp ++ ws ++ ['=', '>'] ++ wsA ++ g2 ++ '\x7d' :: rest) := by
      rw [hteq, hg1]
      simp [List.append_assoc]
    rcases List.append_eq_append_iff.mp hteq2 with ⟨a2, hA1, hw2⟩ | ⟨c2, hρ2, hQ⟩
    · cases a2 with
      | nil =>
        simp only [List.nil_append] at hw2
        injection hw2 with h1 h2
        exact absurd h1 (by decide)
      | cons s a3 =>
        rw [List.cons_append] at hw2
        injection hw2 with h1 h2
        have : ';' ∈ 'o' :: 'n' :: U :: ls ++ ['='] := by
          rw [hA1, ← h1]
          simp
        exact semicolon_not_mem_A1 hU hls this
    · cases c2 with
      | nil =>
        simp only [List.nil_append] at hQ
        injection hQ with h1 h2
        exact absurd h1 (by decide)
      | cons s c3 =>
        rw [List.cons_append] at hQ
        injection hQ with h1 h2
        have hmem : '\x7b' ∈ ρ := by
          rw [hρ2, h1]
          simp
        have := hρ '\x7b' hmem
        exact absurd this (by decide)

theorem tailCheck_congr {P : List Char} {a : Nat} {x : Char}
    (hx : x ∈ List.drop a P) (hxB : isBChar x = false) (u v : List Char) :
    (tailCheck (P ++ u) a = none ↔ tailCheck (P ++ v) a = none) := by
  have haP : a ≤ P.length := by
    by_contra hlt
    push_neg at hlt
    rw [List.drop_eq_nil_of_le (le_of_lt hlt)] at hx
    simp at hx
  have hex : ∃ y ∈ List.drop a P, isBChar y = false := ⟨x, hx, hxB⟩
  have hne : List.dropWhile isBChar (List.drop a P) ≠ [] :=
    dropWhile_ne_nil_of_mem_neg hex
  obtain ⟨k, tail0, hk⟩ : ∃ k tail0,
      List.dropWhile isBChar (List.drop a P) = k :: tail0 := by
    rcases h0 : List.dropWhile isBChar (List.drop a P) with _ | ⟨k, t0⟩
    · exact absurd h0 hne
    · exact ⟨k, t0, rfl⟩
  have hcomp : ∀ w : List Char, tailCheck (P ++ w) a =
      (if !(List.takeWhile isBChar (List.drop a P)).isEmpty && k == '\x7d' then
        some (List.takeWhile isBChar (List.drop a P), tail0 ++ w) else none) := by
    intro w
    unfold tailCheck
    rw [List.drop_append_of_le_length haP, takeWhile_append_of_mem_neg hex,
      dropWhile_append_of_mem_neg hex, hk, List.cons_append]
  rw [hcomp u, hcomp v]
  by_cases hc : (!(List.takeWhile isBChar (List.drop a P)).isEmpty &&
      k == '\x7d') = true
  · simp [hc]
  · simp [hc]

theorem tailTry_congr {P : List Char} {x : Char} (hxB : isBChar x = false)
    (u v : List Char) :
    ∀ a, x ∈ List.drop a P →
      (tailTry (P ++ u) a = none ↔ tailTry (P ++ v) a = none) := by
  intro a
  induction a with
  | zero =>
    intro hx
    exact tailCheck_congr hx hxB u v
  | succ a ih =>
    intro hx
    have hx2 : x ∈ List.drop a P := by
      have hsuf : List.drop (a + 1) P <:+ List.drop a P :=
        List.drop_suffix_drop_left P (Nat.le_succ a)
      exact hsuf.sublist.subset hx
    have hcc := tailCheck_congr hx hxB u v
    rcases hcu : tailCheck (P ++ u) (a + 1) with _ | r
    · have hcv : tailCheck (P ++ v) (a + 1) = none := hcc.mp hcu
      have e1 : tailTry (P ++ u) (a + 1) = tailTry (P ++ u) a := by
        show (match tailCheck (P ++ u) (a + 1) with
          | some r => some r
          | none => tailTry (P ++ u) a) = tailTry (P ++ u) a
        rw [hcu]
      have e2 : tailTry (P ++ v) (a + 1) = tailTry (P ++ v) a := by
        show (match tailCheck (P ++ v) (a + 1) with
          | some r => some r
          | none => tailTry (P ++ v) a) = tailTry (P ++ v) a
        rw [hcv]
      rw [e1, e2]
      exact ih hx2
    · have hcv : tailCheck (P ++ v) (a + 1) ≠ none := by
        intro h0
        rw [hcc.mpr h0] at hcu
        exact Option.noConfusion hcu
      obtain ⟨r2, hcv2⟩ := Option.ne_none_iff_exists'.mp hcv
      have e1 : tailTry (P ++ u) (a + 1) = some r := by
        show (match tailCheck (P ++ u) (a + 1) with
          | some r => some r
          | none => tailTry (P ++ u) a) = some r
        rw [hcu]
      have e2 : tailTry (P ++ v) (a + 1) = some r2 := by
        show (match tailCheck (P ++ v) (a + 1) with
          | some r => some r
          | none => tailTry (P ++ v) a) = some r2
        rw [hcv2]
      rw [e1, e2]
      simp

theorem tailMatch_congr {P : List Char} (hbr : '\x7b' ∈ P) (u v : List Char) :
    (tailMatch (P ++ u) = none ↔ tailMatch (P ++ v) = none) := by
  have hnw : isPySpace '\x7b' = false := by decide
  have hex : ∃ y ∈ P, isPySpace y = false := ⟨_, hbr, hnw⟩
  have hdropw : List.drop (List.takeWhile isPySpace P).length P =
      List.dropWhile isPySpace P := by
    have h9 := List.drop_left (List.takeWhile isPySpace P)
      (List.dropWhile isPySpace P)
    rw [List.takeWhile_append_dropWhile] at h9
    exact h9
  have hmem : '\x7b' ∈ List.drop (List.takeWhile isPySpace P).length P := by
    rw [hdropw]
    have hsplit := List.takeWhile_append_dropWhile isPySpace P
    have : '\x7b' ∈ List.takeWhile isPySpace P ∨
        '\x7b' ∈ List.dropWhile isPySpace P := by
      rw [← List.mem_append, hsplit]
      exact hbr
    rcases this with h | h
    · have := mem_of_mem_takeWhile h
      rw [hnw] at this
      exact Bool.noConfusion this
    · exact h
  unfold tailMatch
  rw [takeWhile_append_of_mem_neg hex, takeWhile_append_of_mem_neg hex]
  exact tailTry_congr (by decide) u v _ hmem

theorem peel_ws {trem : List Char} :
    ∀ (w b g : List Char), (∀ x ∈ w, isPySpace x = true) →
      b ++ 'o' :: g = w ++ '=' :: '>' :: trem →
      ∃ d3, b = w ++ '=' :: '>' :: d3 ∧ trem = d3 ++ 'o' :: g := by
  intro w
  induction w with
  | nil =>
    intro b g _ heq
    simp only [List.nil_append] at heq
    cases b with
    | nil =>
      simp only [List.nil_append] at heq
      injection heq with h1 h2
      exact absurd h1 (by decide)
    | cons x b2 =>
      rw [List.cons_append] at heq
      injection heq with h1 h2
      cases b2 with
      | nil =>
        simp only [List.nil_append] at h2
        injection h2 with h3 h4
        exact absurd h3 (by decide)
      | cons y b3 =>
        rw [List.cons_append] at h2
        injection h2 with h3 h4
        refine ⟨b3, ?_, h4.symm⟩
        rw [h1, h3]
        simp
  | cons wc w2 ih =>
    intro b g hws heq
    cases b with
    | nil =>
      simp only [List.nil_append, List.cons_append] at heq
      injection heq with h1 h2
      have := hws wc (by simp)
      rw [← h1] at this
      exact absurd this (by decide)
    | cons x b2 =>
      rw [List.cons_append] at heq
      rw [List.cons_append] at heq
      injection heq with h1 h2
      obtain ⟨d3, hb2, htrem⟩ := ih b2 g (fun y hy => hws y (by simp [hy])) h2
      refine ⟨d3, ?_, htrem⟩
      rw [h1, hb2]
      simp

theorem parse_head {V : List Char} (hV1 : 'o' ∉ V) :
    ∀ (vp ws b g trem : List Char),
      (vp = [] ∨ ∃ v0, vp = [v0] ∧ v0 ∈ V) → (∀ x ∈ ws, isPySpace x = true) →
      b ++ 'o' :: g = vp ++ ws ++ '=' :: '>' :: trem →
      ∃ d3, b = vp ++ ws ++ '=' :: '>' :: d3 ∧ trem = d3 ++ 'o' :: g := by
  intro vp ws b g trem hvp hws heq
  rcases hvp with rfl | ⟨v0, rfl, hv0⟩
  · simpa using peel_ws ws b g hws (by simpa using heq)
  · cases b with
    | nil =>
      simp only [List.nil_append, List.cons_append] at heq
      injection heq with h1 h2
      rw [← h1] at hv0
      exact absurd hv0 hV1
    | cons x b2 =>
      simp only [List.cons_append] at heq
      injection heq with h1 h2
      obtain ⟨d3, hb2, htrem⟩ := peel_ws ws b2 g hws h2
      refine ⟨d3, ?_, htrem⟩
      rw [h1, hb2]
      simp

theorem peel_ws_uniq :
    ∀ (ws ws2 r1 r2 : List Char), (∀ x ∈ ws, isPySpace x = true) →
      (∀ x ∈ ws2, isPySpace x = true) →
      ws ++ '=' :: '>' :: r1 = ws2 ++ '=' :: '>' :: r2 → r1 = r2 := by
  intro ws
  induction ws with
  | nil =>
    intro ws2 r1 r2 _ hws2 heq
    cases ws2 with
    | nil =>
      simp only [List.nil_append] at heq
      simpa using heq
    | cons w2 ws3 =>
      simp only [List.nil_append, List.cons_append] at heq
      injection heq with h1 h2
      have := hws2 w2 (by simp)
      rw [← h1] at this
      exact absurd this (by decide)
  | cons w ws' ih =>
    intro ws2 r1 r2 hws hws2 heq
    cases ws2 with
    | nil =>
      simp only [List.nil_append, List.cons_append] at heq
      injection heq with h1 h2
      have := hws w (by simp)
      rw [h1] at this
      exact absurd this (by decide)
    | cons w2 ws3 =>
      simp only [List.cons_append] at heq
      injection heq with h1 h2
      exact ih ws3 r1 r2 (fun y hy => hws y (by simp [hy]))
        (fun y hy => hws2 y (by simp [hy])) h2

theorem parse_uniq {V : List Char} (hV2 : '=' ∉ V)
    (hV3 : ∀ x ∈ V, isPySpace x = false) :
    ∀ (vp ws vp2 ws2 r1 r2 : List Char),
      (vp = [] ∨ ∃ v0, vp = [v0] ∧ v0 ∈ V) → (∀ x ∈ ws, isPySpace x = true) →
      (vp2 = [] ∨ ∃ v0, vp2 = [v0] ∧ v0 ∈ V) →
      (∀ x ∈ ws2, isPySpace x = true) →
      vp ++ ws ++ '=' :: '>' :: r1 = vp2 ++ ws2 ++ '=' :: '>' :: r2 →
      r1 = r2 := by
  intro vp ws vp2 ws2 r1 r2 hvp hws hvp2 hws2 heq
  rcases hvp with rfl | ⟨v0, rfl, hv0⟩ <;> rcases hvp2 with rfl | ⟨v2, rfl, hv2⟩
  · exact peel_ws_uniq ws ws2 r1 r2 hws hws2 (by simpa using heq)
  · simp only [List.nil_append, List.cons_append] at heq
    cases ws with
    | nil =>
      simp only [List.nil_append] at heq
      injection heq with h1 h2
      rw [← h1] at hv2
      exact absurd hv2 hV2
    | cons w ws' =>
      rw [List.cons_append] at heq
      injection heq with h1 h2
      have hw := hws w (by simp)
      have := hV3 v2 hv2
      rw [← h1] at this
      rw [hw] at this
      exact Bool.noConfusion this
  · simp only [List.nil_append, List.cons_append] at heq
    cases ws2 with
    | nil =>
      simp only [List.nil_append] at heq
      injection heq with h1 h2
      rw [h1] at hv0
      exact absurd hv0 hV2
    | cons w ws3 =>
      rw [List.cons_append] at heq
      injection heq with h1 h2
      have hw := hws2 w (by simp)
      have := hV3 v0 hv0
      rw [h1] at this
      rw [hw] at this
      exact Bool.noConfusion this
  · simp only [List.cons_append] at heq
    injection heq with h1 h2
    exact peel_ws_uniq ws ws2 r1 r2 hws hws2 h2

theorem isLetterA_of_isUpperA {c : Char} (h : isUpperA c = true) :
    isLetterA c = true := by
  unfold isUpperA at h
  unfold isLetterA
  rw [h]
  rfl

theorem insOpen_eq : insOpen = [' ', '\x7b', ' '] := rfl

theorem insClose_eq : insClose = [';', ' ', '\x7d', '\x7d'] := rfl

theorem matchAt_suffix_region {V : List Char} {reg : List Char}
    (hreg : ∀ x ∈ reg, x ≠ 'o') (rest2 : List Char) :
    ∀ u, u <:+ reg → u ≠ [] → matchAt V (u ++ rest2) = none := by
  intro u hsuf hne
  cases u with
  | nil => exact absurd rfl hne
  | cons y u2 =>
    rw [List.cons_append]
    exact matchAt_cons_ne_o _ (hreg y (head_mem_of_suffix hsuf rfl))

/-- No suffix of the replacement block (group 1, the inserted ` \x7b `,
group 2, the inserted `; \x7d\x7d`) starts a match, whatever follows. -/
theorem block_nomatch {V : List Char} (hV1 : 'o' ∉ V) (hV2 : '=' ∉ V)
    (hV3 : ∀ x ∈ V, isPySpace x = false)
    {U : Char} {ls vp ws g2 : List Char}
    (hU : isUpperA U = true) (hls : ∀ x ∈ ls, isLetterA x = true)
    (hvp : vp = [] ∨ ∃ v0, vp = [v0] ∧ v0 ∈ V)
    (hws : ∀ x ∈ ws, isPySpace x = true)
    (hB : ∀ x ∈ g2, isBChar x = true)
    (Z : List Char) :
    ∀ u1, u1 <:+ ('o' :: 'n' :: U :: (ls ++ '=' :: '\x7b' ::
        (vp ++ ws ++ ['=', '>']))) ++ insOpen ++ g2 ++ insClose →
      u1 ≠ [] → matchAt V (u1 ++ Z) = none := by
  intro u1 hsuf hne
  have hmassage : ('o' :: 'n' :: U :: (ls ++ '=' :: '\x7b' ::
      (vp ++ ws ++ ['=', '>']))) ++ insOpen ++ g2 ++ insClose =
      ('o' :: 'n' :: U :: ls) ++ (['='] ++ (['\x7b'] ++ (vp ++ (ws ++
        (['=', '>'] ++ (insOpen ++ (g2 ++ insClose))))))) := by
    simp [List.append_assoc]
  rw [hmassage] at hsuf
  have hA : ∀ x ∈ 'o' :: 'n' :: U :: ls, isLetterA x = true := by
    intro x hx
    rcases List.mem_cons.mp hx with rfl | hx
    · decide
    · rcases List.mem_cons.mp hx with rfl | hx
      · decide
      · rcases List.mem_cons.mp hx with rfl | hx
        · exact isLetterA_of_isUpperA hU
        · exact hls x hx
  rcases suffix_append_split hsuf with h2 | ⟨σ, hσ, hσne, rfl⟩
  case inr.intro.intro.intro =>
    have hσA : ∀ x ∈ σ, isLetterA x = true :=
      fun x hx => hA x (hσ.sublist.subset hx)
    have hshape : (σ ++ (['='] ++ (['\x7b'] ++ (vp ++ (ws ++ (['=', '>'] ++
        (insOpen ++ (g2 ++ insClose)))))))) ++ Z =
        σ ++ '=' :: '\x7b' :: (vp ++ ws ++ '=' :: '>' ::
          (' ' :: '\x7b' :: (' ' :: (g2 ++ (insClose ++ Z))))) := by
      rw [insOpen_eq]
      simp [List.append_assoc]
    rw [hshape]
    exact matchAt_letters_blocked σ vp ws (' ' :: (g2 ++ (insClose ++ Z)))
      hσA hvp hws hV2 hV3
  rcases suffix_append_split h2 with h3 | ⟨σ, hσ, hσne, rfl⟩
  case inr.intro.intro.intro =>
    rw [List.append_assoc]
    exact matchAt_suffix_region (by decide) _ σ hσ hσne
  rcases suffix_append_split h3 with h4 | ⟨σ, hσ, hσne, rfl⟩
  case inr.intro.intro.intro =>
    rw [List.append_assoc]
    exact matchAt_suffix_region (by decide) _ σ hσ hσne
  rcases suffix_append_split h4 with h5 | ⟨σ, hσ, hσne, rfl⟩
  case inr.intro.intro.intro =>
    have hreg : ∀ x ∈ vp, x ≠ 'o' := by
      intro x hx
      rcases hvp with rfl | ⟨v0, rfl, hv0⟩
      · simp at hx
      · rcases List.mem_cons.mp hx with rfl | hx
        · intro hxo
          rw [hxo] at hv0
          exact hV1 hv0
        · simp at hx
    rw [List.append_assoc]
    exact matchAt_suffix_region hreg _ σ hσ hσne
  rcases suffix_append_split h5 with h6 | ⟨σ, hσ, hσne, rfl⟩
  case inr.intro.intro.intro =>
    have hreg : ∀ x ∈ ws, x ≠ 'o' := by
      intro x hx hxo
      have := hws x hx
      rw [hxo] at this
      exact absurd this (by decide)
    rw [List.append_assoc]
    exact matchAt_suffix_region hreg _ σ hσ hσne
  rcases suffix_append_split h6 with h7 | ⟨σ, hσ, hσne, rfl⟩
  case inr.intro.intro.intro =>
    rw [List.append_assoc]
    exact matchAt_suffix_region (by decide) _ σ hσ hσne
  rcases suffix_append_split h7 with h8 | ⟨σ, hσ, hσne, rfl⟩
  case inr.intro.intro.intro =>
    have hreg : ∀ x ∈ insOpen, x ≠ 'o' := by
      rw [insOpen_eq]
      decide
    rw [List.append_assoc]
    exact matchAt_suffix_region hreg _ σ hσ hσne
  rcases suffix_append_split h8 with h9 | ⟨σ, hσ, hσne, rfl⟩
  case inr.intro.intro.intro =>
    have hσB : ∀ x ∈ σ, isBChar x = true :=
      fun x hx => hB x (hσ.sublist.subset hx)
    have hshape : (σ ++ insClose) ++ Z =
        σ ++ ';' :: (' ' :: '\x7d' :: '\x7d' :: Z) := by
      rw [insClose_eq]
      simp [List.append_assoc]
    rw [hshape]
    exact matchAt_bodyregion_blocked σ _ hσB
  have hreg : ∀ x ∈ insClose, x ≠ 'o' := by
    rw [insClose_eq]
    decide
  exact matchAt_suffix_region hreg _ u1 h9 hne

theorem matchAt_some_parts {V t g1x g2x restx : List Char}
    (h : matchAt V t = some (g1x, g2x, restx)) :
    ∃ t6, headMatch V t = some (g1x, t6) ∧ tailMatch t6 = some (g2x, restx) := by
  unfold matchAt at h
  split at h
  · exact absurd h (by simp)
  · rename_i p g1y t6 hh
    split at h
    · exact absurd h (by simp)
    · rename_i q g2y resty ht
      simp only [Option.some.injEq, Prod.mk.injEq] at h
      obtain ⟨rfl, rfl, rfl⟩ := h
      exact ⟨t6, hh, ht⟩

theorem lbrace_mem_g1 (U : Char) (ls T1 : List Char) :
    '\x7b' ∈ 'o' :: 'n' :: U :: (ls ++ '=' :: '\x7b' :: T1) := by
  simp

/-- If no match starts at a position before a match site, then no match starts
there after the site is rewritten to its replacement either. -/
theorem clean_head_preserved {V : List Char} (hV1 : 'o' ∉ V) (hV2 : '=' ∉ V)
    (hV3 : ∀ x ∈ V, isPySpace x = false)
    {U : Char} {ls vp ws wsA g2 : List Char}
    (hU : isUpperA U = true) (hls : ∀ x ∈ ls, isLetterA x = true)
    (hvp : vp = [] ∨ ∃ v0, vp = [v0] ∧ v0 ∈ V)
    (hws : ∀ x ∈ ws, isPySpace x = true)
    (δ rest Z : List Char)
    (hclean : matchAt V (δ ++ ('o' :: 'n' :: U :: (ls ++ '=' :: '\x7b' ::
        (vp ++ ws ++ ['=', '>']))) ++ wsA ++ g2 ++ '\x7d' :: rest) = none) :
    matchAt V (δ ++ ('o' :: 'n' :: U :: (ls ++ '=' :: '\x7b' ::
        (vp ++ ws ++ ['=', '>']))) ++ insOpen ++ g2 ++ insClose ++ Z) = none := by
  rcases hm : matchAt V (δ ++ ('o' :: 'n' :: U :: (ls ++ '=' :: '\x7b' ::
      (vp ++ ws ++ ['=', '>']))) ++ insOpen ++ g2 ++ insClose ++ Z)
    with _ | ⟨g1x, g2x, restx⟩
  · rfl
  exfalso
  obtain ⟨trem, hhm, htm⟩ := matchAt_some_parts hm
  obtain ⟨U2, ls2, vp2, ws2, hTeq, hg1x, hU2, hls2, hvp2, hws2⟩ := headMatch_inv hhm
  have heq : ('o' :: 'n' :: U2 :: ls2 ++ ['=']) ++ '\x7b' ::
        (vp2 ++ ws2 ++ '=' :: '>' :: trem) =
      (δ ++ ('o' :: 'n' :: U :: ls ++ ['='])) ++ '\x7b' ::
        (vp ++ ws ++ '=' :: '>' :: (insOpen ++ (g2 ++ (insClose ++ Z)))) := by
    have e1 : δ ++ ('o' :: 'n' :: U :: (ls ++ '=' :: '\x7b' ::
        (vp ++ ws ++ ['=', '>']))) ++ insOpen ++ g2 ++ insClose ++ Z =
        ('o' :: 'n' :: U2 :: ls2 ++ ['=']) ++ '\x7b' ::
          (vp2 ++ ws2 ++ '=' :: '>' :: trem) := by
      rw [hTeq]
      simp [List.append_assoc]
    have e2 : δ ++ ('o' :: 'n' :: U :: (ls ++ '=' :: '\x7b' ::
        (vp ++ ws ++ ['=', '>']))) ++ insOpen ++ g2 ++ insClose ++ Z =
        (δ ++ ('o' :: 'n' :: U :: ls ++ ['='])) ++ '\x7b' ::
          (vp ++ ws ++ '=' :: '>' :: (insOpen ++ (g2 ++ (insClose ++ Z)))) := by
      simp [List.append_assoc]
    exact e1.symm.trans e2
  have hPQ : vp2 ++ ws2 ++ '=' :: '>' :: trem =
      vp ++ ws ++ '=' :: '>' :: (insOpen ++ (g2 ++ (insClose ++ Z))) → False := by
    intro hpq
    have htr := parse_uniq hV2 hV3 vp2 ws2 vp ws trem
      (insOpen ++ (g2 ++ (insClose ++ Z))) hvp2 hws2 hvp hws hpq
    rw [htr] at htm
    rw [show insOpen ++ (g2 ++ (insClose ++ Z)) =
        ' ' :: '\x7b' :: (' ' :: (g2 ++ (insClose ++ Z))) from by
      simp [insOpen_eq]] at htm
    rw [tailMatch_insOpen] at htm
    exact Option.noConfusion htm
  rcases List.append_eq_append_iff.mp heq with ⟨a2, hcδ, hb2⟩ | ⟨c2, ha2, hd2⟩
  · cases a2 with
    | nil =>
      simp only [List.nil_append] at hb2
      injection hb2 with h1 h2
      exact hPQ h2
    | cons s a3 =>
      rw [List.cons_append] at hb2
      injection hb2 with h1 h2
      rw [← h1] at hcδ
      rcases List.append_eq_append_iff.mp hcδ with ⟨b2, hA1, hΛ⟩ | ⟨d2, hδ, hΛ2⟩
      · have hmem : '\x7b' ∈ 'o' :: 'n' :: U :: ls ++ ['='] := by
          rw [hΛ]
          simp
        exact lbrace_not_mem_A1 hU hls hmem
      · cases d2 with
        | nil =>
          simp only [List.nil_append] at hΛ2
          injection hΛ2 with hq hrest
          exact absurd hq (by decide)
        | cons q d3 =>
          rw [List.cons_append] at hΛ2
          injection hΛ2 with hq ha3
          rw [← hq] at hδ
          have hP2 : vp2 ++ ws2 ++ '=' :: '>' :: trem =
              d3 ++ 'o' :: ('n' :: U :: (ls ++ '=' :: '\x7b' ::
                (vp ++ ws ++ '=' :: '>' ::
                  (insOpen ++ (g2 ++ (insClose ++ Z)))))) := by
            rw [h2, ha3]
            simp [List.append_assoc]
          obtain ⟨d4, hd3eq, htrem⟩ := parse_head hV1 vp2 ws2 d3
            ('n' :: U :: (ls ++ '=' :: '\x7b' ::
              (vp ++ ws ++ '=' :: '>' :: (insOpen ++ (g2 ++ (insClose ++ Z))))))
            trem hvp2 hws2 hP2.symm
          have hδ2 : δ = ('o' :: 'n' :: U2 :: (ls2 ++ '=' :: '\x7b' ::
              (vp2 ++ ws2 ++ ['=', '>']))) ++ d4 := by
            rw [hδ, hd3eq]
            simp [List.append_assoc]
          have hin : δ ++ ('o' :: 'n' :: U :: (ls ++ '=' :: '\x7b' ::
              (vp ++ ws ++ ['=', '>']))) ++ wsA ++ g2 ++ '\x7d' :: rest =
              'o' :: 'n' :: U2 :: (ls2 ++ '=' :: '\x7b' ::
                (vp2 ++ ws2 ++ '=' :: '>' ::
                  (d4 ++ (('o' :: 'n' :: U :: (ls ++ '=' :: '\x7b' ::
                    (vp ++ ws ++ ['=', '>']))) ++
                      (wsA ++ (g2 ++ '\x7d' :: rest)))))) := by
            rw [hδ2]
            simp [List.append_assoc]
          have hclean2 : matchAt V ('o' :: 'n' :: U2 :: (ls2 ++ '=' :: '\x7b' ::
              (vp2 ++ ws2 ++ '=' :: '>' ::
                (d4 ++ (('o' :: 'n' :: U :: (ls ++ '=' :: '\x7b' ::
                  (vp ++ ws ++ ['=', '>']))) ++
                    (wsA ++ (g2 ++ '\x7d' :: rest))))))) = none := by
            rw [← hin]
            exact hclean
          have hh2 := headMatch_paste U2 ls2 vp2 ws2
            (d4 ++ (('o' :: 'n' :: U :: (ls ++ '=' :: '\x7b' ::
              (vp ++ ws ++ ['=', '>']))) ++ (wsA ++ (g2 ++ '\x7d' :: rest))))
            hU2 hls2 hvp2 hws2 hV2 hV3
          have htm_in := tailMatch_none_of_matchAt_none hclean2 hh2
          have htm_in2 : tailMatch ((d4 ++ ('o' :: 'n' :: U :: (ls ++ '=' ::
              '\x7b' :: (vp ++ ws ++ ['=', '>'])))) ++
                (wsA ++ (g2 ++ '\x7d' :: rest))) = none := by
            rw [List.append_assoc]
            exact htm_in
          have hbr : '\x7b' ∈ d4 ++ ('o' :: 'n' :: U :: (ls ++ '=' :: '\x7b' ::
              (vp ++ ws ++ ['=', '>']))) := by
            simp
          have htm_out := (tailMatch_congr hbr (wsA ++ (g2 ++ '\x7d' :: rest))
            (insOpen ++ (g2 ++ (insClose ++ Z)))).mp htm_in2
          have htrem2 : trem = (d4 ++ ('o' :: 'n' :: U :: (ls ++ '=' :: '\x7b' ::
              (vp ++ ws ++ ['=', '>'])))) ++
                (insOpen ++ (g2 ++ (insClose ++ Z))) := by
            rw [htrem]
            simp [List.append_assoc]
          rw [htrem2, htm_out] at htm
          exact Option.noConfusion htm
  · cases c2 with
    | nil =>
      simp only [List.nil_append] at hd2
      injection hd2 with h1 h2
      exact hPQ h2.symm
    | cons s c3 =>
      rw [List.cons_append] at hd2
      injection hd2 with h1 h2
      have hmem : '\x7b' ∈ 'o' :: 'n' :: U2 :: ls2 ++ ['='] := by
        rw [ha2, ← h1]
        simp
      exact lbrace_not_mem_A1 hU2 hls2 hmem

theorem matchAt_nil (V : List Char) : matchAt V [] = none := rfl

theorem reSubArrow_id_of_clean {V : List Char} :
    ∀ {s : List Char}, (∀ u, u <:+ s → matchAt V u = none) →
      reSubArrow V s = s := by
  intro s
  induction s with
  | nil => intro _; rfl
  | cons c cs ih =>
    intro h
    rw [reSubArrow_nomatch (h (c :: cs) (List.suffix_refl _))]
    rw [ih (fun u hu => h u (hu.trans (List.suffix_cons c cs)))]

theorem reSubArrow_split {V : List Char} :
    ∀ (δ T : List Char),
      (∀ u1, u1 <:+ δ → u1 ≠ [] → matchAt V (u1 ++ T) = none) →
      reSubArrow V (δ ++ T) = δ ++ reSubArrow V T := by
  intro δ
  induction δ with
  | nil => intro T _; rfl
  | cons c δ2 ih =>
    intro T h
    rw [List.cons_append]
    have hm : matchAt V (c :: (δ2 ++ T)) = none := by
      have h0 := h (c :: δ2) (List.suffix_refl _) (by simp)
      rw [List.cons_append] at h0
      exact h0
    rw [reSubArrow_nomatch hm]
    rw [ih T (fun u1 hu1 hne => h u1 (hu1.trans (List.suffix_cons c δ2)) hne)]
    rw [List.cons_append]

theorem matchAt_decomp {V : List Char} :
    ∀ (s : List Char),
      (∀ u, u <:+ s → matchAt V u = none) ∨
      ∃ δ T g1 g2 rest, s = δ ++ T ∧ matchAt V T = some (g1, g2, rest) ∧
        ∀ u1, u1 <:+ δ → u1 ≠ [] → matchAt V (u1 ++ T) = none := by
  intro s
  induction s with
  | nil =>
    left
    intro u hu
    rw [List.suffix_nil.mp hu]
    rfl
  | cons c cs ih =>
    rcases hm : matchAt V (c :: cs) with _ | ⟨g1, g2, rest⟩
    · rcases ih with hcl | ⟨δ, T, g1, g2, rest, heq, hsome, hclean⟩
      · left
        intro u hu
        rcases List.suffix_cons_iff.mp hu with rfl | hu2
        · exact hm
        · exact hcl u hu2
      · right
        refine ⟨c :: δ, T, g1, g2, rest, by rw [List.cons_append, heq], hsome, ?_⟩
        intro u1 hu1 hne
        rcases List.suffix_cons_iff.mp hu1 with rfl | hu2
        · rw [List.cons_append, ← heq]
          exact hm
        · exact hclean u1 hu2 hne
    · right
      exact ⟨[], c :: cs, g1, g2, rest, rfl, hm, fun u1 hu1 hne =>
        absurd (List.suffix_nil.mp hu1) hne⟩

theorem reSubArrow_clean {V : List Char} (hV1 : 'o' ∉ V) (hV2 : '=' ∉ V)
    (hV3 : ∀ x ∈ V, isPySpace x = false) :
    ∀ (n : Nat) (s : List Char), s.length ≤ n →
      ∀ u, u <:+ reSubArrow V s → matchAt V u = none := by
  intro n
  induction n with
  | zero =>
    intro s hs u hu
    have hnil : s = [] := List.length_eq_zero.mp (Nat.le_zero.mp hs)
    subst hnil
    rw [reSubArrow_nil] at hu
    rw [List.suffix_nil.mp hu]
    rfl
  | succ n ih =>
    intro s hs u hu
    rcases matchAt_decomp s with hcl | ⟨δ, T, g1, g2, rest, heqs, hsome, hclean⟩
    · rw [reSubArrow_id_of_clean hcl] at hu
      exact hcl u hu
    · obtain ⟨U, ls, vp, ws, wsA, hg1, hteq, hU, hls, hvp, hws, hwsA, hne, hB⟩ :=
        matchAt_inv hsome
      have hTcons : T = 'o' :: (('n' :: U :: (ls ++ '=' :: '\x7b' ::
          (vp ++ ws ++ ['=', '>']))) ++ wsA ++ g2 ++ '\x7d' :: rest) := by
        rw [hteq, hg1]
        simp [List.append_assoc]
      have hsome2 : matchAt V ('o' :: (('n' :: U :: (ls ++ '=' :: '\x7b' ::
          (vp ++ ws ++ ['=', '>']))) ++ wsA ++ g2 ++ '\x7d' :: rest)) =
          some (g1, g2, rest) := by
        rw [← hTcons]
        exact hsome
      have hsub : reSubArrow V s = δ ++ (g1 ++ insOpen ++ g2 ++ insClose ++
          reSubArrow V rest) := by
        rw [heqs, reSubArrow_split δ T hclean, hTcons, reSubArrow_match hsome2]
      rw [hsub] at hu
      rcases suffix_append_split hu with hu3 | ⟨u1, hu1, hne1, rfl⟩
      · rcases suffix_append_split hu3 with hu4 | ⟨u1, hu1, hne1, rfl⟩
        · have hrl : rest.length ≤ n := by
            have h1 := matchAt_some_length hsome
            have h2 : T.length ≤ n + 1 := by
              rw [heqs] at hs
              simp only [List.length_append] at hs
              omega
            omega
          exact ih rest hrl u hu4
        · rw [hg1] at hu1
          exact block_nomatch hV1 hV2 hV3 hU hls hvp hws hB
            (reSubArrow V rest) u1 hu1 hne1
      · have hcl1 : matchAt V (u1 ++ ('o' :: 'n' :: U :: (ls ++ '=' :: '\x7b' ::
            (vp ++ ws ++ ['=', '>']))) ++ wsA ++ g2 ++ '\x7d' :: rest) = none := by
          have h0 := hclean u1 hu1 hne1
          rw [show u1 ++ T = u1 ++ ('o' :: 'n' :: U :: (ls ++ '=' :: '\x7b' ::
              (vp ++ ws ++ ['=', '>']))) ++ wsA ++ g2 ++ '\x7d' :: rest from by
            rw [hteq, hg1]
            simp [List.append_assoc]] at h0
          exact h0
        have hch := clean_head_preserved hV1 hV2 hV3 hU hls hvp hws u1 rest
          (reSubArrow V rest) hcl1
        rw [show u1 ++ (g1 ++ insOpen ++ g2 ++ insClose ++ reSubArrow V rest) =
            u1 ++ ('o' :: 'n' :: U :: (ls ++ '=' :: '\x7b' ::
              (vp ++ ws ++ ['=', '>']))) ++ insOpen ++ g2 ++ insClose ++
                reSubArrow V rest from by
          rw [hg1]
          simp [List.append_assoc]]
        exact hch

theorem reSubArrow_idem {V : List Char} (hV1 : 'o' ∉ V) (hV2 : '=' ∉ V)
    (hV3 : ∀ x ∈ V, isPySpace x = false) (s : List Char) :
    reSubArrow V (reSubArrow V s) = reSubArrow V s :=
  reSubArrow_id_of_clean (fun u hu =>
    reSubArrow_clean hV1 hV2 hV3 s.length s (le_refl _) u hu)

/-- C9: Self-idempotence of the arrow-handler regex rules: for every input
string, substituting the pattern
`(on[A-Z][a-zA-Z]*=\x7b(?:e|)\s*=>)\s*([^\x7b\x7d\n]+)\x7d` (and its
`(?:e|v|)` variant from `fix_app`) with the replacement `\1 \x7b \2; \x7d\x7d`
is idempotent on its own output: a second application of just this rule
changes nothing, because the inserted opening brace after `=>` prevents the
body group from matching again. -/
theorem claim_c9_regex_idempotent :
    (∀ s : List Char, reSubArrow vE (reSubArrow vE s) = reSubArrow vE s) ∧
    (∀ s : List Char, reSubArrow vEV (reSubArrow vEV s) = reSubArrow vEV s) := by
  constructor
  · intro s
    exact reSubArrow_idem (by decide) (by decide) (by decide) s
  · intro s
    exact reSubArrow_idem (by decide) (by decide) (by decide) s
